import Mathlib

/-!
# Arduino Geiger counter: ring-buffer averager and rate estimator

A shallow embedding of `MovingAverage.{h,cpp}` and `Geiger.{h,cpp}`.

Machine integers are natural numbers reduced modulo the width of the C++ type
wherever the source can wrap: `byte` is modulo `256`, `uint16_t` modulo `65536`
and `uint32_t` / `unsigned long` modulo `4294967296`.  The millisecond clock
`millis()` is an explicit argument of every method that reads it.
-/

namespace ArduinoGeiger

/-! ## MovingAverage -/

/-- Fields of the C++ class `MovingAverage`.  `mSamples` is the heap block obtained in the
constructor, one list entry per `uint16_t` element. -/
structure MovingAverage where
  /-- Buffer with the last samples. -/
  mSamples : List Nat
  /-- Current sum of samples (`uint32_t`). -/
  mNAverage : Nat
  /-- Buffer size, number of elements (`byte`). -/
  mSize : Nat
  /-- Current number of samples (`byte`). -/
  mNumSamples : Nat
  /-- Current buffer index (`byte`). -/
  mIndex : Nat
deriving DecidableEq

namespace MovingAverage

/-- Method `MovingAverage::reset()`: clears index, sample count and running sum; the sample
buffer is left as it is. -/
def reset (s : MovingAverage) : MovingAverage :=
  { s with mIndex := 0, mNumSamples := 0, mNAverage := 0 }

/-- Constructor `MovingAverage::MovingAverage(byte size)`.  The block returned by `malloc` is
not initialised: its contents are whatever `heap` holds.  The scalar members are set by the
call of `reset()` that ends the constructor. -/
def construct (size : Nat) (heap : Nat → Nat) : MovingAverage :=
  reset
    { mSamples := (List.range size).map heap
      mNAverage := heap size
      mSize := size
      mNumSamples := heap (size + 1)
      mIndex := heap (size + 2) }

/-- Method `MovingAverage::add(uint16_t val)`.

The update `mNAverage += ((int32_t)val - (int32_t)oldestValue)` converts the signed difference
of two 16-bit values to `uint32_t`, which is `(val + 2^32 - oldestValue) mod 2^32`, and adds
it modulo `2^32`. -/
def add (s : MovingAverage) (val : Nat) : MovingAverage :=
  let oldestValue := if s.mNumSamples < s.mSize then 0 else s.mSamples.getD s.mIndex 0
  let mNumSamples := if s.mNumSamples < s.mSize then (s.mNumSamples + 1) % 256 else s.mNumSamples
  let mSamples := s.mSamples.set s.mIndex val
  let mIndex := ((s.mIndex + 1) % 256) % s.mSize
  { mSamples := mSamples
    mNAverage := (s.mNAverage + (val + 4294967296 - oldestValue) % 4294967296) % 4294967296
    mSize := s.mSize
    mNumSamples := mNumSamples
    mIndex := mIndex }

/-- Method `MovingAverage::getAverage()`: the running sum, not divided by the sample count. -/
def getAverage (s : MovingAverage) : Nat := s.mNAverage

/-- Method `MovingAverage::getNumberOfSamples()`. -/
def getNumberOfSamples (s : MovingAverage) : Nat := s.mNumSamples

/-- The calls `add(v_1); ...; add(v_k)` in this order. -/
def addAll (s : MovingAverage) (vs : List Nat) : MovingAverage := vs.foldl add s

/-- The pairs `(getAverage(), getNumberOfSamples())` read after each call of the sequence
`add(v_1); ...; add(v_k)`. -/
def observe (s : MovingAverage) : List Nat → List (Nat × Nat)
  | [] => []
  | v :: vs => (getAverage (add s v), getNumberOfSamples (add s v)) :: observe (add s v) vs

/-- States of an averager of capacity `N` that a program can reach: construction followed by
any sequence of `add` (with a 16-bit argument) and `reset` calls. -/
inductive Reachable (N : Nat) : MovingAverage → Prop
  | construct (heap : Nat → Nat) : Reachable N (construct N heap)
  | add {s : MovingAverage} (v : Nat) : Reachable N s → v < 65536 → Reachable N (add s v)
  | reset {s : MovingAverage} : Reachable N s → Reachable N (reset s)

/-- Invariant tying a state of capacity `N` to the list `vs` of the values added since the last
reset: the scalar members are functions of `vs`, and the slot `j mod N` still holds `v_j` for
each of the last `N` positions `j`. -/
structure Window (N : Nat) (vs : List Nat) (s : MovingAverage) : Prop where
  size : s.mSize = N
  len : s.mSamples.length = N
  num : s.mNumSamples = min vs.length N
  idx : s.mIndex = vs.length % N
  sum : s.mNAverage = (vs.drop (vs.length - N)).sum
  win : ∀ j, j < vs.length → vs.length ≤ j + N → s.mSamples.getD (j % N) 0 = vs.getD j 0

/-- Simulation between two averagers: equal scalar members, and equal buffer contents on the
slots that have been written since the last reset (all slots once the buffer is full). -/
structure Sim (s t : MovingAverage) : Prop where
  size : s.mSize = t.mSize
  lenS : s.mSamples.length = s.mSize
  lenT : t.mSamples.length = t.mSize
  num : s.mNumSamples = t.mNumSamples
  idx : s.mIndex = t.mIndex
  sum : s.mNAverage = t.mNAverage
  numle : s.mNumSamples ≤ s.mSize
  warm : s.mNumSamples < s.mSize → s.mIndex = s.mNumSamples
  idxlt : s.mIndex < s.mSize
  agree : ∀ i, i < s.mNumSamples → s.mSamples.getD i 0 = t.mSamples.getD i 0

end MovingAverage

/-! ## Single-precision arithmetic

The rate computations use the C++ type `float`, IEEE-754 binary32 with round-to-nearest-even.
Every value that occurs is zero or a positive number far inside the exponent range, so a
value is a pair of a 24-bit significand and an unbounded binary exponent.  On the AVR targets
of the Arduino toolchain `double` is this 32-bit type as well, which covers the literal
`60000.0` in `getRateAverage`. -/

/-- Number of binary digits of `n`, by at most `fuel` halvings. -/
def bitLengthAux : Nat → Nat → Nat
  | 0, _ => 0
  | fuel + 1, n => if n = 0 then 0 else bitLengthAux fuel (n / 2) + 1

/-- Number of binary digits of `n`; `0` for `n = 0`. -/
def bitLength (n : Nat) : Nat := bitLengthAux n n

/-- A non-negative finite binary32 value `m * 2 ^ e`, kept normalised: `m = 0` and `e = 0`, or
`2 ^ 23 ≤ m < 2 ^ 24`. -/
structure F32 where
  /-- Significand. -/
  m : Nat
  /-- Exponent of the unit in the last place. -/
  e : Int
deriving DecidableEq

namespace F32

/-- The rational number denoted by a value. -/
def toRat (x : F32) : ℚ := (x.m : ℚ) * (2 : ℚ) ^ x.e

/-- Round the exact value `m * 2 ^ e` to 24 significant bits, to nearest, ties to even. -/
def round (m : Nat) (e : Int) : F32 :=
  if m = 0 then ⟨0, 0⟩
  else if bitLength m ≤ 24 then ⟨m * 2 ^ (24 - bitLength m), e - ((24 - bitLength m : Nat) : Int)⟩
  else
    let k := bitLength m - 24
    let q := m / 2 ^ k
    let r := m % 2 ^ k
    let half := 2 ^ (k - 1)
    let q1 := if half < r ∨ (r = half ∧ q % 2 = 1) then q + 1 else q
    if q1 = 16777216 then ⟨8388608, e + (k : Int) + 1⟩ else ⟨q1, e + (k : Int)⟩

/-- Conversion of an unsigned integer to `float`. -/
def ofNat (n : Nat) : F32 := round n 0

/-- The product `x * y` of two `float` values. -/
def mul (x y : F32) : F32 := round (x.m * y.m) (x.e + y.e)

/-- The correctly rounded value of `a / b * 2 ^ e` for `b ≠ 0`: the quotient is computed with at
least two bits beyond the 24 that are kept, and a sticky bit records a non-zero remainder. -/
def ofRatio (a b : Nat) (e : Int) : F32 :=
  let s := 26 + bitLength b
  let q := (a * 2 ^ s) / b
  let r := (a * 2 ^ s) % b
  round (2 * q + (if r = 0 then 0 else 1)) (e - (s : Int) - 1)

/-- The quotient `x / y` of two `float` values; `none` for a zero divisor, where IEEE-754 gives
an infinity or a NaN that no later conversion to an integer is defined on. -/
def div (x y : F32) : Option F32 :=
  if y.m = 0 then none else some (ofRatio x.m y.m (x.e - y.e))

/-- The `float` nearest to the decimal literal `digits * 10 ^ (-scale)`. -/
def ofDecimal (digits scale : Nat) : F32 := ofRatio digits (10 ^ scale) 0

/-- Conversion `(unsigned long) x`: the fractional part is discarded.  The conversion is
undefined in C++ when the integral part does not fit 32 bits; that case is `none`. -/
def toUInt32 (x : F32) : Option Nat :=
  let v := if 0 ≤ x.e then x.m * 2 ^ x.e.toNat else x.m / 2 ^ (-x.e).toNat
  if v < 4294967296 then some v else none

end F32

/-! ## Geiger -/

/-- Members of the C++ class `Geiger`. -/
structure Geiger where
  /-- Total number of counts from `mStartTimeMs` (`uint32_t`). -/
  mTotalCount : Nat
  /-- Initial timer value in milliseconds (`uint32_t`). -/
  mStartTimeMs : Nat
  /-- Number of counts in a `SampleIntervalMs` (`uint16_t`). -/
  mIntervalCount : Nat
  /-- Index used to increment the `SampleIntervalMs` time slots (`uint32_t`). -/
  mIntervalIndex : Nat
  /-- Moving average object. -/
  mAverage : MovingAverage
deriving DecidableEq

/-- The pair of outputs `*cpm`, `*nsv_h` of a rate query.  An output is `none` when C++ leaves
its value undefined: an integer division by zero, or a `float` that does not fit
`unsigned long`. -/
structure Rates where
  cpm : Option Nat
  nsv_h : Option Nat
deriving DecidableEq

namespace Geiger

/-- SBM-20 tube dose ratio, the constant `Geiger::CpmToNanoSvh = 5.7002793f`. -/
def CpmToNanoSvh : F32 := F32.ofDecimal 57002793 7

/-- Number of elements in the moving average buffer, `Geiger::MovingAverageBuffSize`. -/
def MovingAverageBuffSize : Nat := 10

/-- Time interval in milliseconds for the collection of one sample,
`Geiger::SampleIntervalMs`. -/
def SampleIntervalMs : Nat := 3000

/-- Constructor `Geiger::Geiger()`: only `mAverage` is initialised, with
`MovingAverageBuffSize` elements; the other members hold whatever `heap` holds. -/
def construct (heap : Nat → Nat) : Geiger :=
  { mTotalCount := heap 100 % 4294967296
    mStartTimeMs := heap 101 % 4294967296
    mIntervalCount := heap 102 % 65536
    mIntervalIndex := heap 103 % 4294967296
    mAverage := MovingAverage.construct MovingAverageBuffSize heap }

/-- Method `Geiger::resetCount()`; `millis` is the value returned by `millis()`. -/
def resetCount (s : Geiger) (millis : Nat) : Geiger :=
  { mTotalCount := 0
    mIntervalCount := 0
    mIntervalIndex := 1
    mAverage := s.mAverage.reset
    mStartTimeMs := millis }

/-- The expression `millis() - mStartTimeMs` in `unsigned long` arithmetic. -/
def elapsedMs (s : Geiger) (millis : Nat) : Nat :=
  (millis + 4294967296 - s.mStartTimeMs) % 4294967296

/-- Method `Geiger::addCount(uint16_t num)`; `millis` is the value returned by `millis()`.
The product `mIntervalIndex*SampleIntervalMs` is an `unsigned long` product. -/
def addCount (s : Geiger) (millis : Nat) (num : Nat) : Geiger :=
  let mTotalCount := (s.mTotalCount + num) % 4294967296
  let msec := elapsedMs s millis
  if (s.mIntervalIndex * SampleIntervalMs) % 4294967296 ≤ msec then
    { mTotalCount := mTotalCount
      mStartTimeMs := s.mStartTimeMs
      mIntervalCount := num
      mIntervalIndex := (s.mIntervalIndex + 1) % 4294967296
      mAverage := s.mAverage.add s.mIntervalCount }
  else
    { mTotalCount := mTotalCount
      mStartTimeMs := s.mStartTimeMs
      mIntervalCount := (s.mIntervalCount + num) % 65536
      mIntervalIndex := s.mIntervalIndex
      mAverage := s.mAverage }

/-- Unsigned division as C++ defines it: no value for a zero divisor. -/
def udiv (a b : Nat) : Option Nat := if b = 0 then none else some (a / b)

/-- Method `Geiger::getRateTimer(cpm, nsv_h)`; `millis` is the value returned by `millis()`.
The product `mTotalCount*60` is an `unsigned long` product. -/
def getRateTimer (s : Geiger) (millis : Nat) : Rates :=
  let sec := elapsedMs s millis / 1000
  let ret : Option Nat :=
    if sec ≠ 0 then udiv ((s.mTotalCount * 60) % 4294967296) sec else some 0
  let tmp : Option F32 := ret.map (fun r => F32.mul (F32.ofNat r) CpmToNanoSvh)
  { cpm := ret
    nsv_h := tmp.bind F32.toUInt32 }

/-- The value of `tmp` in `getRateAverage` when `*cpm` is assigned: the conversion factor
`60000.0/((float)SampleIntervalMs * num)` times the running sum, with
`num = max(1, mAverage.getNumberOfSamples())`. -/
def rateAverageValue (s : Geiger) : Option F32 :=
  let num := max 1 s.mAverage.getNumberOfSamples
  let tmp := F32.div (F32.ofNat 60000) (F32.mul (F32.ofNat SampleIntervalMs) (F32.ofNat num))
  tmp.map (fun t => F32.mul t (F32.ofNat s.mAverage.getAverage))

/-- Method `Geiger::getRateAverage(cpm, nsv_h)`. -/
def getRateAverage (s : Geiger) : Rates :=
  let tmp := rateAverageValue s
  { cpm := tmp.bind F32.toUInt32
    nsv_h := (tmp.map (fun t => F32.mul t CpmToNanoSvh)).bind F32.toUInt32 }

/-- The state after the calls `addCount(num_1); ...; addCount(num_k)`, the `i`-th call reading
the clock value `millis_i`; `calls` lists the pairs `(millis_i, num_i)`. -/
def run (s : Geiger) (calls : List (Nat × Nat)) : Geiger :=
  calls.foldl (fun t c => addCount t c.1 c.2) s

/-- A state with 71582789 events since the epoch start at clock value `0`; the product
`71582789 * 60` is `2^32 + 44`. -/
def wrappedProductState : Geiger :=
  { mTotalCount := 71582789
    mStartTimeMs := 0
    mIntervalCount := 0
    mIntervalIndex := 1
    mAverage := MovingAverage.construct MovingAverageBuffSize (fun _ => 0) }

/-- The dose rate as the specification words it: `round(cpm * conversionFactor)`, the product
with the tube constant `5.7002793` rounded to the nearest whole number. -/
def specRoundedDoseRate (cpm : Nat) : Int := round ((cpm : ℚ) * (57002793 / 10000000))

/-- Two estimator states that no later call can tell apart: equal scalar members and averagers
related by `MovingAverage.Sim`. -/
structure Equiv (s t : Geiger) : Prop where
  total : s.mTotalCount = t.mTotalCount
  start : s.mStartTimeMs = t.mStartTimeMs
  count : s.mIntervalCount = t.mIntervalCount
  index : s.mIntervalIndex = t.mIntervalIndex
  size : s.mAverage.mSize = MovingAverageBuffSize
  avg : MovingAverage.Sim s.mAverage t.mAverage

end Geiger

namespace MovingAverage

/-- A call on an averager after its construction. -/
inductive Call where
  | add (val : Nat)
  | reset
deriving DecidableEq

/-- The effect of one call. -/
def step (s : MovingAverage) : Call → MovingAverage
  | Call.add val => add s val
  | Call.reset => reset s

/-- The state after a sequence of calls, in this order. -/
def exec (s : MovingAverage) (calls : List Call) : MovingAverage := calls.foldl step s

/-- Number of `add` calls of the sequence that come after its last `reset`. -/
def addsSinceReset (calls : List Call) : Nat :=
  calls.foldl (fun k c => match c with
    | Call.add _ => k + 1
    | Call.reset => 0) 0

end MovingAverage

namespace Geiger

/-- The state `s` with its epoch-start member replaced by `start`. -/
def atStart (s : Geiger) (start : Nat) : Geiger := { s with mStartTimeMs := start }

end Geiger


/-! ## LoopTimer -/

/-- Conversion of an `int` to `unsigned long`: the value modulo `2^32`. -/
def toULong (x : Int) : Nat := (x % 4294967296).toNat

/-- Member of the C++ class `LoopTimer`. -/
structure LoopTimer where
  /-- Clock value of the construction or of the last expiry (`unsigned long`). -/
  mPrevMillis : Nat
deriving DecidableEq

namespace LoopTimer

/-- Constructor `LoopTimer::LoopTimer()`; `millis` is the value returned by `millis()`. -/
def construct (millis : Nat) : LoopTimer := { mPrevMillis := millis }

/-- Method `LoopTimer::forceExpired(int ms)`: the statement `mPrevMillis -= ms` in
`unsigned long` arithmetic. -/
def forceExpired (s : LoopTimer) (ms : Int) : LoopTimer :=
  { mPrevMillis := (s.mPrevMillis + 4294967296 - toULong ms) % 4294967296 }

/-- Method `LoopTimer::expired(int ms)`; `millis` is the value returned by `millis()`.  The
result is the returned flag and the state after the call. -/
def expired (s : LoopTimer) (millis : Nat) (ms : Int) : Bool × LoopTimer :=
  let ret := decide (toULong ms ≤ (millis + 4294967296 - s.mPrevMillis) % 4294967296)
  (ret, if ret then { mPrevMillis := millis } else s)

/-- The calls `expired(ms)` made at the times `times`, counted in milliseconds since power-up
without wrapping (the clock reads the time modulo `2^32`): the times of the calls that
returned true. -/
def fireTimes (ms : Int) (s : LoopTimer) : List Nat → List Nat
  | [] => []
  | t :: ts =>
    if (expired s (t % 4294967296) ms).1 then
      t :: fireTimes ms (expired s (t % 4294967296) ms).2 ts
    else fireTimes ms (expired s (t % 4294967296) ms).2 ts

/-- The state after the calls `expired(ms)` made at the times `times`. -/
def runExpired (ms : Int) (s : LoopTimer) (times : List Nat) : LoopTimer :=
  times.foldl (fun t time => (expired t (time % 4294967296) ms).2) s

end LoopTimer


/-! ## DebounceButton -/

/-- Members of the C++ class `DebounceButton`. -/
structure DebounceButton where
  mPin : Nat
  mPreviousLev : Nat
  mLastSts : Nat
  mEventTime : Nat
  mDebounceDelay : Int
deriving DecidableEq

namespace DebounceButton

/-- Push button status `DBTN_KEYUP`. -/
def DBTN_KEYUP : Nat := 0

/-- Push button status `DBTN_KEYDOWN`. -/
def DBTN_KEYDOWN : Nat := 1

/-- Push button status `DBTN_NOCHANGE`. -/
def DBTN_NOCHANGE : Nat := 2

/-- The pin level `HIGH` of the Arduino core, `0x1`; the level `LOW` is `0x0`. -/
def HIGH : Nat := 1

/-- Constructor `DebounceButton::DebounceButton(byte pin, int db_msec)`.  The member
`mEventTime` is not initialised: it holds whatever `heap` is. -/
def construct (pin : Nat) (db_msec : Int) (heap : Nat) : DebounceButton :=
  { mPin := pin
    mDebounceDelay := db_msec
    mLastSts := DBTN_KEYUP
    mPreviousLev := HIGH
    mEventTime := heap }

/-- Method `DebounceButton::update()`; `lev` is the value returned by `digitalRead(mPin)` and
`millis` the value returned by `millis()`.  The result is the returned status and the state
after the call. -/
def update (s : DebounceButton) (lev millis : Nat) : Nat × DebounceButton :=
  if lev ≠ s.mPreviousLev then
    (DBTN_NOCHANGE, { s with mEventTime := millis, mPreviousLev := lev })
  else if toULong s.mDebounceDelay ≤ (millis + 4294967296 - s.mEventTime) % 4294967296 then
    (if (if lev = HIGH then DBTN_KEYUP else DBTN_KEYDOWN) ≠ s.mLastSts
        then (if lev = HIGH then DBTN_KEYUP else DBTN_KEYDOWN) else DBTN_NOCHANGE,
      { s with mLastSts := if lev = HIGH then DBTN_KEYUP else DBTN_KEYDOWN, mPreviousLev := lev })
  else
    (DBTN_NOCHANGE, { s with mPreviousLev := lev })

/-- The state after the calls `update()` that read the pairs `(level, time)` of `readings`, in
this order; a time counts milliseconds since power-up without wrapping, and the clock reads it
modulo `2^32`. -/
def run (s : DebounceButton) (readings : List (Nat × Nat)) : DebounceButton :=
  readings.foldl (fun t r => (update t r.1 (r.2 % 4294967296)).2) s

/-- The level read by the last call of `readings`; `HIGH`, the level the constructor assumes,
when there has been no call. -/
def lastLevel (readings : List (Nat × Nat)) : Nat :=
  (readings.getLast?.map Prod.fst).getD HIGH

/-- On the readings listed newest first: the time of the most recent call that read a level
other than the call before it (other than `HIGH` for the first call). -/
def lastChangeRev : List (Nat × Nat) → Option Nat
  | [] => none
  | [r] => if r.1 ≠ HIGH then some r.2 else none
  | r :: r' :: rest => if r.1 ≠ r'.1 then some r.2 else lastChangeRev (r' :: rest)

/-- The time of the most recent call of `readings` that observed a level change. -/
def lastChange (readings : List (Nat × Nat)) : Option Nat := lastChangeRev readings.reverse

end DebounceButton


namespace Geiger

/-- The condition of the `if` in `addCount`: the elapsed time has reached
`mIntervalIndex*SampleIntervalMs`, in `unsigned long` arithmetic. -/
def flushDue (s : Geiger) (millis : Nat) : Bool :=
  decide ((s.mIntervalIndex * SampleIntervalMs) % 4294967296 ≤ elapsedMs s millis)

/-- The arguments of the calls `mAverage.add(...)` made by the calls `addCount` of `calls`, in
the order they are made. -/
def flushes (s : Geiger) : List (Nat × Nat) → List Nat
  | [] => []
  | c :: cs =>
    if flushDue s c.1 then s.mIntervalCount :: flushes (addCount s c.1 c.2) cs
    else flushes (addCount s c.1 c.2) cs

/-- No call of `calls` overflows the 32-bit total counter or the 16-bit interval bucket. -/
def NoOverflow (s : Geiger) : List (Nat × Nat) → Prop
  | [] => True
  | c :: cs =>
    s.mTotalCount + c.2 < 4294967296 ∧
    (flushDue s c.1 = false → s.mIntervalCount + c.2 < 65536) ∧
    NoOverflow (addCount s c.1 c.2) cs

/-- No flush of `calls` overflows the 32-bit interval index. -/
def IndexInRange (s : Geiger) : List (Nat × Nat) → Prop
  | [] => True
  | c :: cs =>
    (flushDue s c.1 = true → s.mIntervalIndex + 1 < 4294967296) ∧
    IndexInRange (addCount s c.1 c.2) cs

end Geiger



namespace Geiger

end Geiger


namespace Geiger

/-- The calls `addCount(1000)` made once a second during the first `n` seconds after the epoch
start: the `k`-th call reads the elapsed time `1000 * k` ms, for `k = 1, ..., n`. -/
def everySecond (n : Nat) : List (Nat × Nat) :=
  (List.range n).map (fun k => (1000 * (k + 1), 1000))

end Geiger


/-! # Theorems -/

namespace MovingAverage

/-! ### The window invariant -/

theorem sum_le_of_lt (l : List Nat) (h : ∀ x ∈ l, x < 65536) : l.sum ≤ 65535 * l.length := by
  induction l with
  | nil => simp
  | cons a t ih =>
    have ha : a < 65536 := h a (List.mem_cons_self a t)
    have ht := ih (fun x hx => h x (List.mem_cons_of_mem a hx))
    simp only [List.sum_cons, List.length_cons]
    omega

theorem mod_ne_of_lt_of_lt {N j k : Nat} (hjk : j < k) (hk : k < j + N) : j % N ≠ k % N := by
  intro h
  have h0 : (k - j) % N = 0 := Nat.sub_mod_eq_zero_of_mod_eq h.symm
  have h1 : (k - j) % N = k - j := Nat.mod_eq_of_lt (by omega)
  omega

theorem reachable_size_len {N : Nat} {s : MovingAverage} (h : Reachable N s) :
    s.mSize = N ∧ s.mSamples.length = N := by
  induction h with
  | construct heap => simp [construct, reset]
  | add v _ _ ih => simpa [add] using ih
  | reset _ ih => simpa [reset] using ih

theorem window_reset {N : Nat} {s : MovingAverage} (hs : s.mSize = N)
    (hl : s.mSamples.length = N) : Window N [] (reset s) where
  size := by simpa [reset] using hs
  len := by simpa [reset] using hl
  num := by simp [reset]
  idx := by simp [reset]
  sum := by simp [reset]
  win := by intro j hj; simp at hj

theorem window_add {N : Nat} {vs : List Nat} {s : MovingAverage} (h : Window N vs s)
    (hN1 : 1 ≤ N) (hN : N ≤ 255) (hvs : ∀ x ∈ vs, x < 65536) (v : Nat) (hv : v < 65536) :
    Window N (vs ++ [v]) (add s v) := by
  obtain ⟨hsize, hlen, hnum, hidx, hsum, hwin⟩ := h
  have hidxlt : s.mIndex < N := by rw [hidx]; exact Nat.mod_lt _ (by omega)
  have hdropsum : (vs.drop (vs.length - N)).sum ≤ 65535 * N := by
    have h1 := sum_le_of_lt (vs.drop (vs.length - N)) (fun x hx => hvs x (List.mem_of_mem_drop hx))
    have h2 : (vs.drop (vs.length - N)).length ≤ N := by simp; omega
    calc (vs.drop (vs.length - N)).sum ≤ 65535 * (vs.drop (vs.length - N)).length := h1
      _ ≤ 65535 * N := Nat.mul_le_mul_left _ h2
  have hbound : s.mNAverage ≤ 65535 * 255 := by
    rw [hsum]; exact le_trans hdropsum (Nat.mul_le_mul_left _ hN)
  by_cases hfull : vs.length < N
  · -- warm-up: nothing is evicted
    have hlt : s.mNumSamples < s.mSize := by rw [hnum, hsize]; simpa using hfull
    have hmin : min vs.length N = vs.length := by omega
    refine ⟨by simpa [add] using hsize, by simpa [add] using hlen, ?_, ?_, ?_, ?_⟩
    · have hlen1 : (vs ++ [v]).length = vs.length + 1 := by simp
      simp only [add, if_pos hlt]
      rw [hnum, hmin, hlen1]
      omega
    · simp only [add, hidx, hsize, List.length_append, List.length_singleton]
      rw [Nat.mod_eq_of_lt hfull, Nat.mod_eq_of_lt (show vs.length + 1 < 256 by omega)]
    · have hd0 : vs.length - N = 0 := by omega
      have hd1 : (vs ++ [v]).length - N = 0 := by simp; omega
      simp only [add, if_pos hlt, hd1, List.drop_zero, List.sum_append, List.sum_singleton]
      rw [hsum, hd0, List.drop_zero] at hbound ⊢
      omega
    · intro j hj hjN
      simp only [List.length_append, List.length_singleton] at hj hjN
      simp only [add, hidx, Nat.mod_eq_of_lt hfull]
      by_cases hjk : j = vs.length
      · subst hjk
        rw [Nat.mod_eq_of_lt hfull]
        simp [List.getD_eq_getElem?_getD, hlen, hfull]
      · have hj' : j < vs.length := by omega
        have hjN' : j < N := by omega
        rw [Nat.mod_eq_of_lt hjN']
        have := hwin j hj' (by omega)
        rw [Nat.mod_eq_of_lt hjN'] at this
        simp only [List.getD_eq_getElem?_getD] at this ⊢
        rw [List.getElem?_set_ne (by omega), this, List.getElem?_append_left hj']
  · -- full: the slot under the cursor holds the oldest value
    have hge : N ≤ vs.length := by omega
    have hnlt : ¬ s.mNumSamples < s.mSize := by rw [hnum, hsize]; simp [hge]
    have hmin : min vs.length N = N := by omega
    have hold : s.mSamples.getD s.mIndex 0 = vs.getD (vs.length - N) 0 := by
      have := hwin (vs.length - N) (by omega) (by omega)
      rw [← Nat.mod_eq_sub_mod hge] at this
      rw [hidx]; exact this
    have hsplit : (vs.drop (vs.length - N)).sum
        = vs.getD (vs.length - N) 0 + (vs.drop (vs.length - N + 1)).sum := by
      have hlt : vs.length - N < vs.length := by omega
      rw [List.drop_eq_getElem_cons hlt, List.sum_cons]
      simp [List.getD_eq_getElem?_getD, List.getElem?_eq_getElem hlt]
    have holdlt : vs.getD (vs.length - N) 0 < 65536 := by
      have hlt : vs.length - N < vs.length := by omega
      have : vs.getD (vs.length - N) 0 = vs[vs.length - N] := by
        simp [List.getD_eq_getElem?_getD, List.getElem?_eq_getElem hlt]
      rw [this]; exact hvs _ (List.getElem_mem _)
    refine ⟨by simpa [add] using hsize, by simpa [add] using hlen, ?_, ?_, ?_, ?_⟩
    · have hlen1 : (vs ++ [v]).length = vs.length + 1 := by simp
      simp only [add, if_neg hnlt]
      rw [hnum, hmin, hlen1]
      omega
    · simp only [add, hidx, hsize, List.length_append, List.length_singleton]
      have h1 : vs.length % N < N := Nat.mod_lt _ (by omega)
      rw [Nat.mod_eq_of_lt (show vs.length % N + 1 < 256 by omega)]
      rw [Nat.add_mod vs.length 1 N]
      simp
    · have hd1 : (vs ++ [v]).length - N = vs.length - N + 1 := by simp; omega
      have hd2 : (vs ++ [v]).drop (vs.length - N + 1) = vs.drop (vs.length - N + 1) ++ [v] :=
        List.drop_append_of_le_length (by omega)
      simp only [add, if_neg hnlt, hd1, hd2, List.sum_append, List.sum_singleton, hold]
      rw [hsum, hsplit] at hbound ⊢
      omega
    · intro j hj hjN
      simp only [List.length_append, List.length_singleton] at hj hjN
      simp only [add, hidx]
      by_cases hjk : j = vs.length
      · subst hjk
        have h1 : vs.length % N < N := Nat.mod_lt _ (by omega)
        simp [List.getD_eq_getElem?_getD, hlen, h1]
      · have hj' : j < vs.length := by omega
        have hne : vs.length % N ≠ j % N := fun h => mod_ne_of_lt_of_lt hj' (by omega) h.symm
        have := hwin j hj' (by omega)
        simp only [List.getD_eq_getElem?_getD] at this ⊢
        rw [List.getElem?_set_ne hne, this, List.getElem?_append_left hj']

theorem window_addAll {N : Nat} {s : MovingAverage} (h : Window N [] s) (hN1 : 1 ≤ N)
    (hN : N ≤ 255) (vs : List Nat) (hvs : ∀ x ∈ vs, x < 65536) :
    Window N vs (addAll s vs) := by
  induction vs using List.reverseRecOn with
  | nil => simpa [addAll] using h
  | append_singleton l a ih =>
    have hl : ∀ x ∈ l, x < 65536 := fun x hx => hvs x (List.mem_append_left _ hx)
    have ha : a < 65536 := hvs a (by simp)
    have := window_add (ih hl) hN1 hN hl a ha
    simpa [addAll, List.foldl_append] using this

/-! ### Simulation of a reset averager by a new one -/

theorem sim_add {s t : MovingAverage} (h : Sim s t) (hN1 : 1 ≤ s.mSize) (hN : s.mSize ≤ 255)
    (v : Nat) : Sim (add s v) (add t v) := by
  obtain ⟨hsize, hlenS, hlenT, hnum, hidx, hsum, hnumle, hwarm, hidxlt, hagree⟩ := h
  by_cases hlt : s.mNumSamples < s.mSize
  · have hlt' : t.mNumSamples < t.mSize := by rw [← hnum, ← hsize]; exact hlt
    have hi := hwarm hlt
    have hnum1 : (s.mNumSamples + 1) % 256 = s.mNumSamples + 1 := Nat.mod_eq_of_lt (by omega)
    refine ⟨by simpa [add] using hsize, by simpa [add] using hlenS, by simpa [add] using hlenT,
      ?_, ?_, ?_, ?_, ?_, ?_, ?_⟩
    · simp only [add, if_pos hlt, if_pos hlt']; rw [hnum]
    · simp only [add, hidx, hsize]
    · simp only [add, if_pos hlt, if_pos hlt', hsum]
    · simp only [add, if_pos hlt, hnum1]; omega
    · intro h2
      simp only [add, if_pos hlt, hnum1] at h2 ⊢
      rw [hi, hnum1, Nat.mod_eq_of_lt h2]
    · simp only [add]; exact Nat.mod_lt _ (by omega)
    · intro i hi2
      simp only [add, if_pos hlt, hnum1] at hi2 ⊢
      simp only [List.getD_eq_getElem?_getD]
      by_cases hii : i = s.mIndex
      · subst hii
        rw [← hidx]
        simp [hlenS, hlenT, ← hsize, hidxlt]
      · have := hagree i (by omega)
        simp only [List.getD_eq_getElem?_getD] at this
        rw [List.getElem?_set_ne (Ne.symm hii), List.getElem?_set_ne (by rw [← hidx]; exact Ne.symm hii), this]
  · have hlt' : ¬ t.mNumSamples < t.mSize := by rw [← hnum, ← hsize]; exact hlt
    have hfull : s.mNumSamples = s.mSize := by omega
    refine ⟨by simpa [add] using hsize, by simpa [add] using hlenS, by simpa [add] using hlenT,
      ?_, ?_, ?_, ?_, ?_, ?_, ?_⟩
    · simp only [add, if_neg hlt, if_neg hlt']; exact hnum
    · simp only [add, hidx, hsize]
    · simp only [add, if_neg hlt, if_neg hlt']
      rw [← hidx, hagree s.mIndex (by omega), hsum]
    · simp only [add, if_neg hlt]; exact hnumle
    · intro h2
      simp only [add, if_neg hlt] at h2
      omega
    · simp only [add]; exact Nat.mod_lt _ (by omega)
    · intro i hi2
      simp only [add, if_neg hlt] at hi2 ⊢
      simp only [List.getD_eq_getElem?_getD]
      by_cases hii : i = s.mIndex
      · subst hii
        rw [← hidx]
        simp [hlenS, hlenT, ← hsize, hidxlt]
      · have := hagree i hi2
        simp only [List.getD_eq_getElem?_getD] at this
        rw [List.getElem?_set_ne (Ne.symm hii), List.getElem?_set_ne (by rw [← hidx]; exact Ne.symm hii), this]

theorem sim_observe {s t : MovingAverage} (h : Sim s t) (hN1 : 1 ≤ s.mSize) (hN : s.mSize ≤ 255)
    (vs : List Nat) : observe s vs = observe t vs := by
  induction vs generalizing s t with
  | nil => rfl
  | cons v vs ih =>
    have h1 := sim_add h hN1 hN v
    have hsz : (add s v).mSize = s.mSize := rfl
    simp only [observe, getAverage, getNumberOfSamples, h1.sum, h1.num]
    rw [ih h1 (by rw [hsz]; exact hN1) (by rw [hsz]; exact hN)]

theorem sim_reset_construct {N : Nat} (hN1 : 1 ≤ N) {s : MovingAverage} (hs : Reachable N s)
    (heap : Nat → Nat) : Sim (reset s) (construct N heap) := by
  obtain ⟨h1, h2⟩ := reachable_size_len hs
  refine ⟨?_, ?_, ?_, ?_, ?_, ?_, ?_, ?_, ?_, ?_⟩ <;> simp [reset, construct, h1, h2]
  omega

/-! ### Contract of the averager -/

/-- C1: sliding-window property.  On a freshly reset averager of capacity `N` with
`1 ≤ N ≤ 255` (a newly constructed one is the case `s = construct N heap`), after `k > N` calls
`add(v_1) ... add(v_k)` of 16-bit values, `getNumberOfSamples()` is `N` and `getAverage()` is the
exact sum of the last `N` values; that sum is below `2^32`, so the 32-bit running sum has not
wrapped. -/
theorem sliding_window (N : Nat) (hN1 : 1 ≤ N) (hN : N ≤ 255) (s : MovingAverage)
    (hs : Reachable N s) (vs : List Nat) (hvs : ∀ v ∈ vs, v < 65536) (hk : N < vs.length) :
    getNumberOfSamples (addAll (reset s) vs) = N ∧
    getAverage (addAll (reset s) vs) = (vs.drop (vs.length - N)).sum ∧
    (vs.drop (vs.length - N)).length = N ∧
    (vs.drop (vs.length - N)).sum < 4294967296 := by
  obtain ⟨h1, h2⟩ := reachable_size_len hs
  have hw := window_addAll (window_reset h1 h2) hN1 hN vs hvs
  have hlen : (vs.drop (vs.length - N)).length = N := by simp; omega
  have hsum := sum_le_of_lt (vs.drop (vs.length - N))
    (fun x hx => hvs x (List.mem_of_mem_drop hx))
  rw [hlen] at hsum
  refine ⟨?_, hw.sum, hlen, by omega⟩
  rw [getNumberOfSamples, hw.num]
  omega

/-- Witness of `sliding_window`: capacity 3, five values, the last three sum to 12. -/
theorem sliding_window_witness :
    Reachable 3 (construct 3 (fun _ => 7)) ∧
    getNumberOfSamples (addAll (reset (construct 3 (fun _ => 7))) [1, 2, 3, 4, 5]) = 3 ∧
    getAverage (addAll (reset (construct 3 (fun _ => 7))) [1, 2, 3, 4, 5])
      = ([1, 2, 3, 4, 5].drop ([1, 2, 3, 4, 5].length - 3)).sum :=
  have h := sliding_window 3 (by decide) (by decide) (construct 3 (fun _ => 7))
    (Reachable.construct _) [1, 2, 3, 4, 5] (by decide) (by decide)
  ⟨Reachable.construct _, h.1, h.2.1⟩

/-- C2: warm-up property.  On a freshly reset averager of capacity `N` with `1 ≤ N ≤ 255`,
after `k ≤ N` calls `add(v_1) ... add(v_k)` of 16-bit values, `getNumberOfSamples()` is `k` and
`getAverage()` is the exact sum `v_1 + ... + v_k`. -/
theorem warm_up (N : Nat) (hN1 : 1 ≤ N) (hN : N ≤ 255) (s : MovingAverage)
    (hs : Reachable N s) (vs : List Nat) (hvs : ∀ v ∈ vs, v < 65536) (hk : vs.length ≤ N) :
    getNumberOfSamples (addAll (reset s) vs) = vs.length ∧
    getAverage (addAll (reset s) vs) = vs.sum := by
  obtain ⟨h1, h2⟩ := reachable_size_len hs
  have hw := window_addAll (window_reset h1 h2) hN1 hN vs hvs
  refine ⟨?_, ?_⟩
  · rw [getNumberOfSamples, hw.num]; omega
  · have h0 : vs.length - N = 0 := by omega
    rw [getAverage, hw.sum, h0, List.drop_zero]

/-- Witness of `warm_up`: capacity 10, two values. -/
theorem warm_up_witness :
    Reachable 10 (construct 10 (fun i => i + 40000)) ∧
    getNumberOfSamples (addAll (reset (construct 10 (fun i => i + 40000))) [8, 12]) = 2 ∧
    getAverage (addAll (reset (construct 10 (fun i => i + 40000))) [8, 12]) = [8, 12].sum :=
  have h := warm_up 10 (by decide) (by decide) (construct 10 (fun i => i + 40000))
    (Reachable.construct _) [8, 12] (by decide) (by decide)
  ⟨Reachable.construct _, h.1, h.2⟩

/-- C3: `reset()` restores the observable state of a newly constructed averager.  For a state
`s` reached by any sequence of `add` and `reset` calls on an averager of capacity `N`
(`1 ≤ N ≤ 255`) and any later sequence `vs` of `add` calls, the values of `getAverage()` and
`getNumberOfSamples()` read after each `add` on `reset s` are those read on a newly constructed
averager of capacity `N`, whatever the heap holds; both are `0` right after `reset`.  The buffer
contents that `reset` leaves behind are never read. -/
theorem reset_observably_new (N : Nat) (hN1 : 1 ≤ N) (hN : N ≤ 255) (s : MovingAverage)
    (hs : Reachable N s) (heap : Nat → Nat) (vs : List Nat) :
    observe (reset s) vs = observe (construct N heap) vs ∧
    getAverage (reset s) = 0 ∧ getNumberOfSamples (reset s) = 0 ∧
    getAverage (construct N heap) = 0 ∧ getNumberOfSamples (construct N heap) = 0 := by
  have hsim := sim_reset_construct hN1 hs heap
  have hsz : (reset s).mSize = N := (reachable_size_len hs).1
  refine ⟨sim_observe hsim (by rw [hsz]; exact hN1) (by rw [hsz]; exact hN) vs, rfl, rfl, rfl, rfl⟩

/-- Witness of `reset_observably_new`: a full averager of capacity 2 holding stale samples is
reset and compared with a new one on a heap with other contents. -/
theorem reset_observably_new_witness :
    Reachable 2 (add (add (add (construct 2 (fun _ => 9)) 100) 200) 300) ∧
    observe (reset (add (add (add (construct 2 (fun _ => 9)) 100) 200) 300)) [1, 2, 3]
      = observe (construct 2 (fun _ => 55)) [1, 2, 3] :=
  have hr : Reachable 2 (add (add (add (construct 2 (fun _ => 9)) 100) 200) 300) :=
    Reachable.add 300 (Reachable.add 200 (Reachable.add 100 (Reachable.construct _) (by decide))
      (by decide)) (by decide)
  ⟨hr, (reset_observably_new 2 (by decide) (by decide) _ hr (fun _ => 55) [1, 2, 3]).1⟩

end MovingAverage

/-! ### Single-precision arithmetic -/

theorem bitLengthAux_spec (fuel n : Nat) (hf : n ≤ fuel) (hn : n ≠ 0) :
    1 ≤ bitLengthAux fuel n ∧ 2 ^ (bitLengthAux fuel n - 1) ≤ n ∧ n < 2 ^ bitLengthAux fuel n := by
  induction fuel generalizing n with
  | zero => omega
  | succ f ih =>
    simp only [bitLengthAux, if_neg hn]
    by_cases h2 : n / 2 = 0
    · have h1 : n = 1 := by omega
      have h0 : bitLengthAux f 0 = 0 := by cases f <;> simp [bitLengthAux]
      rw [h2, h0, h1]
      decide
    · obtain ⟨hb, hlo, hhi⟩ := ih (n / 2) (by omega) h2
      refine ⟨by omega, ?_, ?_⟩
      · have hpow : 2 ^ (bitLengthAux f (n / 2) + 1 - 1) = 2 * 2 ^ (bitLengthAux f (n / 2) - 1) := by
          rw [Nat.add_sub_cancel, ← Nat.pow_succ']
          congr 1
          omega
        rw [hpow]
        omega
      · rw [Nat.pow_succ]
        omega

theorem bitLength_spec (n : Nat) (hn : n ≠ 0) :
    1 ≤ bitLength n ∧ 2 ^ (bitLength n - 1) ≤ n ∧ n < 2 ^ bitLength n :=
  bitLengthAux_spec n n (Nat.le_refl n) hn

namespace F32

theorem round_m_ne_zero (m : Nat) (e : Int) (hm : m ≠ 0) : (round m e).m ≠ 0 := by
  obtain ⟨hb, hlo, _⟩ := bitLength_spec m hm
  unfold round
  rw [if_neg hm]
  by_cases hle : bitLength m ≤ 24
  · rw [if_pos hle]
    exact Nat.mul_ne_zero hm (by positivity)
  · rw [if_neg hle]
    have hq : 1 ≤ m / 2 ^ (bitLength m - 24) := by
      rw [Nat.one_le_div_iff (by positivity)]
      exact le_trans (Nat.pow_le_pow_right (by decide) (by omega)) hlo
    dsimp only
    split_ifs <;> dsimp only <;> omega

theorem ofNat_m_ne_zero (n : Nat) (hn : n ≠ 0) : (ofNat n).m ≠ 0 := round_m_ne_zero n 0 hn

theorem mul_m_ne_zero (x y : F32) (hx : x.m ≠ 0) (hy : y.m ≠ 0) : (mul x y).m ≠ 0 :=
  round_m_ne_zero _ _ (Nat.mul_ne_zero hx hy)

theorem toUInt32_eq_floor (x : F32) :
    toUInt32 x = if ⌊toRat x⌋₊ < 4294967296 then some ⌊toRat x⌋₊ else none := by
  have hfloor : ⌊toRat x⌋₊ = if 0 ≤ x.e then x.m * 2 ^ x.e.toNat else x.m / 2 ^ (-x.e).toNat := by
    unfold toRat
    split
    · rename_i h
      have he : x.e = (x.e.toNat : Int) := (Int.toNat_of_nonneg h).symm
      rw [he, zpow_natCast, Int.toNat_ofNat]
      have : ((x.m : ℚ) * 2 ^ x.e.toNat) = ((x.m * 2 ^ x.e.toNat : Nat) : ℚ) := by push_cast; rfl
      rw [this, Nat.floor_natCast]
    · rename_i h
      generalize hk : (-x.e).toNat = k
      have he : x.e = -(k : Int) := by omega
      have h2 : ((2 : ℚ) ^ k) = ((2 ^ k : Nat) : ℚ) := by push_cast; rfl
      rw [he, zpow_neg, zpow_natCast, ← div_eq_mul_inv, h2, Nat.floor_div_eq_div]
  simp only [toUInt32]
  rw [hfloor]

/-! ### Relative error of the operations -/

theorem toRat_round_big (m : Nat) (e : Int) (hm : m ≠ 0) (hb : ¬ bitLength m ≤ 24) :
    ∃ q1 : Nat, toRat (round m e) = (q1 : ℚ) * 2 ^ (bitLength m - 24) * 2 ^ e ∧
      16777216 * (q1 * 2 ^ (bitLength m - 24)) ≤ 16777216 * m + m ∧
      16777216 * m ≤ 16777216 * (q1 * 2 ^ (bitLength m - 24)) + m := by
  obtain ⟨_, hlo, _⟩ := bitLength_spec m hm
  have hk : bitLength m - 1 = (bitLength m - 24 - 1) + 24 := by omega
  have hk2 : bitLength m - 24 = (bitLength m - 24 - 1) + 1 := by omega
  generalize hkk : bitLength m - 24 = k at *
  have hP : 2 ^ k = 2 * 2 ^ (k - 1) := by rw [hk2, Nat.pow_succ]; simp; ring
  have hH : 2 ^ (k - 1) * 16777216 ≤ m := by
    rw [hk, Nat.pow_add] at hlo; exact hlo
  have hdm := Nat.div_add_mod m (2 ^ k)
  have hr : m % 2 ^ k < 2 ^ k := Nat.mod_lt _ (by positivity)
  refine ⟨if 2 ^ (k - 1) < m % 2 ^ k ∨ (m % 2 ^ k = 2 ^ (k - 1) ∧ m / 2 ^ k % 2 = 1)
      then m / 2 ^ k + 1 else m / 2 ^ k, ?_, ?_, ?_⟩
  · unfold round
    rw [if_neg hm, if_neg hb]
    simp only [hkk]
    split_ifs with h1 h2 h2
    · simp only [toRat]
      rw [h2]
      have : e + (k : Int) + 1 = 1 + (k : Int) + e := by ring
      rw [this, zpow_add₀ (by norm_num), zpow_add₀ (by norm_num), zpow_natCast]
      norm_num
      ring
    · simp only [toRat]
      have : e + (k : Int) = (k : Int) + e := by ring
      rw [this, zpow_add₀ (by norm_num), zpow_natCast]
      push_cast
      ring
    · simp only [toRat]
      rw [h2]
      have : e + (k : Int) + 1 = 1 + (k : Int) + e := by ring
      rw [this, zpow_add₀ (by norm_num), zpow_add₀ (by norm_num), zpow_natCast]
      norm_num
      ring
    · simp only [toRat]
      have : e + (k : Int) = (k : Int) + e := by ring
      rw [this, zpow_add₀ (by norm_num), zpow_natCast]
      ring
  · split_ifs with h1
    · have hge : 2 ^ (k - 1) ≤ m % 2 ^ k := by
        rcases h1 with h | h
        · omega
        · omega
      have : (m / 2 ^ k + 1) * 2 ^ k = 2 ^ k * (m / 2 ^ k) + 2 ^ k := by ring
      rw [this]
      omega
    · have : m / 2 ^ k * 2 ^ k = 2 ^ k * (m / 2 ^ k) := by ring
      rw [this]
      omega
  · split_ifs with h1
    · have : (m / 2 ^ k + 1) * 2 ^ k = 2 ^ k * (m / 2 ^ k) + 2 ^ k := by ring
      rw [this]
      omega
    · have hle : m % 2 ^ k ≤ 2 ^ (k - 1) := by
        by_contra hc
        exact h1 (Or.inl (by omega))
      have : m / 2 ^ k * 2 ^ k = 2 ^ k * (m / 2 ^ k) := by ring
      rw [this]
      omega


theorem round_within (m : Nat) (e : Int) :
    (m : ℚ) * 2 ^ e * (1 - 1 / 16777216) ≤ toRat (round m e) ∧
    toRat (round m e) ≤ (m : ℚ) * 2 ^ e * (1 + 1 / 16777216) := by
  have hpos : (0 : ℚ) < 2 ^ e := by positivity
  by_cases hm : m = 0
  · subst hm
    simp [round, toRat]
  by_cases hb : bitLength m ≤ 24
  · have hval : toRat (round m e) = (m : ℚ) * 2 ^ e := by
      unfold round
      rw [if_neg hm, if_pos hb]
      simp only [toRat]
      rw [zpow_sub₀ (by norm_num), zpow_natCast]
      push_cast
      field_simp
      ring
    have h0 : (0 : ℚ) ≤ (m : ℚ) * 2 ^ e := by positivity
    rw [hval]
    constructor <;> nlinarith
  · obtain ⟨q1, hval, h1, h2⟩ := toRat_round_big m e hm hb
    have h1' : (16777216 : ℚ) * ((q1 : ℚ) * 2 ^ (bitLength m - 24)) ≤ 16777216 * m + m := by
      exact_mod_cast h1
    have h2' : (16777216 : ℚ) * m ≤ 16777216 * ((q1 : ℚ) * 2 ^ (bitLength m - 24)) + m := by
      exact_mod_cast h2
    rw [hval]
    constructor
    · have : (m : ℚ) * (1 - 1 / 16777216) ≤ (q1 : ℚ) * 2 ^ (bitLength m - 24) := by linarith
      calc (m : ℚ) * 2 ^ e * (1 - 1 / 16777216) = (m : ℚ) * (1 - 1 / 16777216) * 2 ^ e := by ring
        _ ≤ (q1 : ℚ) * 2 ^ (bitLength m - 24) * 2 ^ e := mul_le_mul_of_nonneg_right this hpos.le
    · have : (q1 : ℚ) * 2 ^ (bitLength m - 24) ≤ (m : ℚ) * (1 + 1 / 16777216) := by linarith
      calc (q1 : ℚ) * 2 ^ (bitLength m - 24) * 2 ^ e
          ≤ (m : ℚ) * (1 + 1 / 16777216) * 2 ^ e := mul_le_mul_of_nonneg_right this hpos.le
        _ = (m : ℚ) * 2 ^ e * (1 + 1 / 16777216) := by ring

theorem ofNat_within (n : Nat) :
    (n : ℚ) * (1 - 1 / 16777216) ≤ toRat (ofNat n) ∧
    toRat (ofNat n) ≤ (n : ℚ) * (1 + 1 / 16777216) := by
  have h := round_within n 0
  simpa [ofNat] using h

theorem mul_within (x y : F32) :
    toRat x * toRat y * (1 - 1 / 16777216) ≤ toRat (mul x y) ∧
    toRat (mul x y) ≤ toRat x * toRat y * (1 + 1 / 16777216) := by
  have h := round_within (x.m * y.m) (x.e + y.e)
  have hv : ((x.m * y.m : Nat) : ℚ) * 2 ^ (x.e + y.e) = toRat x * toRat y := by
    simp only [toRat]
    rw [zpow_add₀ (by norm_num)]
    push_cast
    ring
  rw [hv] at h
  exact h

theorem ofRatio_within (a b : Nat) (e : Int) (hb : b ≠ 0) :
    (a : ℚ) / b * 2 ^ e * ((1 - 1 / 67108864) * (1 - 1 / 16777216)) ≤ toRat (ofRatio a b e) ∧
    toRat (ofRatio a b e) ≤ (a : ℚ) / b * 2 ^ e * ((1 + 1 / 67108864) * (1 + 1 / 16777216)) := by
  have hbpos : (0 : ℚ) < b := by exact_mod_cast Nat.pos_of_ne_zero hb
  have hepos : (0 : ℚ) < 2 ^ e := by positivity
  by_cases ha : a = 0
  · subst ha
    simp [ofRatio, round, toRat]
  obtain ⟨_, _, hbhi⟩ := bitLength_spec b hb
  generalize hs : 26 + bitLength b = s
  have h2s : 2 ^ s = 67108864 * 2 ^ bitLength b := by rw [← hs, Nat.pow_add]
  set q := a * 2 ^ s / b with hq
  set r := a * 2 ^ s % b with hr
  have hdm : b * q + r = a * 2 ^ s := Nat.div_add_mod _ _
  have hrlt : r < b := Nat.mod_lt _ (Nat.pos_of_ne_zero hb)
  -- the quotient has at least 27 bits
  have hqbig : 67108864 ≤ q := by
    rw [hq, Nat.le_div_iff_mul_le (Nat.pos_of_ne_zero hb)]
    calc 67108864 * b ≤ 67108864 * 2 ^ bitLength b := Nat.mul_le_mul_left _ hbhi.le
      _ = 2 ^ s := h2s.symm
      _ ≤ a * 2 ^ s := Nat.le_mul_of_pos_left _ (Nat.pos_of_ne_zero ha)
  have hround := round_within (2 * q + (if r = 0 then 0 else 1)) (e - (s : Int) - 1)
  have hdef : ofRatio a b e = round (2 * q + (if r = 0 then 0 else 1)) (e - (s : Int) - 1) := by
    simp only [ofRatio, hs, hq, hr]
  rw [hdef]
  -- exact value X = 2 * a * 2^s / b, against M = 2q + sticky
  have hX : (a : ℚ) / b * 2 ^ e = ((2 : ℚ) * q + 2 * r / b) * 2 ^ (e - (s : Int) - 1) := by
    have hdm' : (b : ℚ) * q + r = a * 2 ^ s := by exact_mod_cast hdm
    have h1 : (2 : ℚ) * q + 2 * r / b = 2 * (a * 2 ^ s) / b := by
      field_simp
      linarith [hdm']
    rw [h1, zpow_sub₀ (by norm_num), zpow_sub₀ (by norm_num), zpow_natCast]
    field_simp
    ring
  have hpos2 : (0 : ℚ) < 2 ^ (e - (s : Int) - 1) := by positivity
  have hqQ : (67108864 : ℚ) ≤ q := by exact_mod_cast hqbig
  have hrQ : (r : ℚ) < b := by exact_mod_cast hrlt
  have hr0 : (0 : ℚ) ≤ r := by positivity
  have hfrac : (0 : ℚ) ≤ 2 * r / b ∧ (2 : ℚ) * r / b < 2 := by
    constructor
    · positivity
    · rw [div_lt_iff₀ hbpos]; linarith
  have hf0 : r = 0 → (2 : ℚ) * r / b = 0 := by
    intro h; rw [h]; simp
  generalize (2 : ℚ) * r / b = f at hX hfrac hf0
  obtain ⟨hf1, hf2⟩ := hfrac
  have hM : ((2 : ℚ) * q + f) * (1 - 1 / 67108864)
        ≤ ((2 * q + (if r = 0 then 0 else 1) : Nat) : ℚ) ∧
      (((2 * q + (if r = 0 then 0 else 1) : Nat) : ℚ))
        ≤ ((2 : ℚ) * q + f) * (1 + 1 / 67108864) := by
    by_cases hr0' : r = 0
    · rw [if_pos hr0', hf0 hr0']
      push_cast
      constructor <;> linarith
    · rw [if_neg hr0']
      push_cast
      constructor <;> linarith
  generalize ((2 * q + (if r = 0 then 0 else 1) : Nat) : ℚ) = M at hround hM
  generalize toRat (round (2 * q + (if r = 0 then 0 else 1)) (e - (s : Int) - 1)) = z at hround
  generalize (2 : ℚ) ^ (e - (s : Int) - 1) = p at hX hround hpos2
  obtain ⟨hM1, hM2⟩ := hM
  obtain ⟨hz1, hz2⟩ := hround
  rw [hX]
  constructor
  · calc (2 * (q : ℚ) + f) * p * ((1 - 1 / 67108864) * (1 - 1 / 16777216))
        = ((2 * (q : ℚ) + f) * (1 - 1 / 67108864)) * (p * (1 - 1 / 16777216)) := by ring
      _ ≤ M * (p * (1 - 1 / 16777216)) := by
          exact mul_le_mul_of_nonneg_right hM1 (by positivity)
      _ = M * p * (1 - 1 / 16777216) := by ring
      _ ≤ z := hz1
  · calc z ≤ M * p * (1 + 1 / 16777216) := hz2
      _ = M * (p * (1 + 1 / 16777216)) := by ring
      _ ≤ ((2 * (q : ℚ) + f) * (1 + 1 / 67108864)) * (p * (1 + 1 / 16777216)) := by
          exact mul_le_mul_of_nonneg_right hM2 (by positivity)
      _ = (2 * (q : ℚ) + f) * p * ((1 + 1 / 67108864) * (1 + 1 / 16777216)) := by ring


theorem within_mul {x y X Y l1 h1 l2 h2 : ℚ} (hX : 0 ≤ X) (hY : 0 ≤ Y) (hl1 : 0 ≤ l1)
    (hl2 : 0 ≤ l2) (hx : X * l1 ≤ x ∧ x ≤ X * h1) (hy : Y * l2 ≤ y ∧ y ≤ Y * h2) :
    X * Y * (l1 * l2) ≤ x * y ∧ x * y ≤ X * Y * (h1 * h2) := by
  have hx0 : 0 ≤ x := le_trans (mul_nonneg hX hl1) hx.1
  have hy0 : 0 ≤ y := le_trans (mul_nonneg hY hl2) hy.1
  constructor
  · calc X * Y * (l1 * l2) = (X * l1) * (Y * l2) := by ring
      _ ≤ x * y := mul_le_mul hx.1 hy.1 (mul_nonneg hY hl2) hx0
  · calc x * y ≤ (X * h1) * (Y * h2) := mul_le_mul hx.2 hy.2 hy0 (le_trans hx0 hx.2)
      _ = X * Y * (h1 * h2) := by ring

theorem within_trans {z w W lo hi l h : ℚ} (hl : 0 ≤ l)
    (hh : 0 ≤ h) (hw : W * lo ≤ w ∧ w ≤ W * hi) (hz : w * l ≤ z ∧ z ≤ w * h) :
    W * (lo * l) ≤ z ∧ z ≤ W * (hi * h) := by
  constructor
  · calc W * (lo * l) = (W * lo) * l := by ring
      _ ≤ w * l := mul_le_mul_of_nonneg_right hw.1 hl
      _ ≤ z := hz.1
  · calc z ≤ w * h := hz.2
      _ ≤ (W * hi) * h := mul_le_mul_of_nonneg_right hw.2 hh
      _ = W * (hi * h) := by ring

theorem within_div {x y X Y l1 h1 l2 h2 : ℚ} (hX : 0 ≤ X) (hY : 0 < Y) (hl1 : 0 ≤ l1)
    (hl2 : 0 < l2) (hx : X * l1 ≤ x ∧ x ≤ X * h1) (hy : Y * l2 ≤ y ∧ y ≤ Y * h2) :
    X / Y * (l1 / h2) ≤ x / y ∧ x / y ≤ X / Y * (h1 / l2) := by
  have hx0 : 0 ≤ x := le_trans (mul_nonneg hX hl1) hx.1
  have hy0 : 0 < y := lt_of_lt_of_le (mul_pos hY hl2) hy.1
  have hh2 : 0 < h2 := by
    have : 0 < Y * h2 := lt_of_lt_of_le hy0 hy.2
    by_contra hc
    push_neg at hc
    nlinarith
  constructor
  · calc X / Y * (l1 / h2) = (X * l1) / (Y * h2) := by field_simp
      _ ≤ x / y := div_le_div₀ hx0 hx.1 hy0 hy.2
  · calc x / y ≤ (X * h1) / (Y * l2) :=
          div_le_div₀ (le_trans hx0 hx.2) hx.2 (mul_pos hY hl2) hy.1
      _ = X / Y * (h1 / l2) := by field_simp

theorem div_within (x y : F32) (hy : y.m ≠ 0) :
    ∃ z : F32, div x y = some z ∧
      toRat x / toRat y * ((1 - 1 / 67108864) * (1 - 1 / 16777216)) ≤ toRat z ∧
      toRat z ≤ toRat x / toRat y * ((1 + 1 / 67108864) * (1 + 1 / 16777216)) := by
  refine ⟨ofRatio x.m y.m (x.e - y.e), by rw [div, if_neg hy], ?_⟩
  have hv : (x.m : ℚ) / y.m * 2 ^ (x.e - y.e) = toRat x / toRat y := by
    have hy' : (y.m : ℚ) ≠ 0 := by exact_mod_cast hy
    simp only [toRat]
    rw [zpow_sub₀ (by norm_num)]
    field_simp
  have h := ofRatio_within x.m y.m (x.e - y.e) hy
  rw [hv] at h
  exact h

end F32

namespace Geiger

/-! ### Equivalent estimator states -/

theorem equiv_addCount {s t : Geiger} (h : Equiv s t) (millis num : Nat) :
    Equiv (addCount s millis num) (addCount t millis num) := by
  obtain ⟨h1, h2, h3, h4, h5, h6⟩ := h
  have hadd := MovingAverage.sim_add h6 (by rw [h5]; decide) (by rw [h5]; decide) s.mIntervalCount
  simp only [addCount, elapsedMs, ← h1, ← h2, ← h3, ← h4]
  split
  · exact ⟨rfl, rfl, rfl, rfl, h5, by rw [h3] at hadd ⊢; exact hadd⟩
  · exact ⟨rfl, rfl, rfl, rfl, h5, h6⟩

theorem equiv_run {s t : Geiger} (h : Equiv s t) (calls : List (Nat × Nat)) :
    Equiv (run s calls) (run t calls) := by
  induction calls generalizing s t with
  | nil => exact h
  | cons c cs ih => exact ih (equiv_addCount h c.1 c.2)

theorem equiv_resetCount {s t : Geiger}
    (hs : MovingAverage.Reachable MovingAverageBuffSize s.mAverage)
    (ht : MovingAverage.Reachable MovingAverageBuffSize t.mAverage) (millis : Nat) :
    Equiv (resetCount s millis) (resetCount t millis) := by
  obtain ⟨h1, h2⟩ := MovingAverage.reachable_size_len hs
  obtain ⟨h3, h4⟩ := MovingAverage.reachable_size_len ht
  refine ⟨rfl, rfl, rfl, rfl, h1, ?_⟩
  refine ⟨?_, ?_, ?_, ?_, ?_, ?_, ?_, ?_, ?_, ?_⟩ <;>
    simp [resetCount, MovingAverage.reset, h1, h2, h3, h4, MovingAverageBuffSize]

theorem equiv_rates {s t : Geiger} (h : Equiv s t) (millis : Nat) :
    getRateTimer s millis = getRateTimer t millis ∧ getRateAverage s = getRateAverage t := by
  obtain ⟨h1, h2, _, _, _, h6⟩ := h
  constructor
  · simp only [getRateTimer, elapsedMs, h1, h2]
  · simp only [getRateAverage, rateAverageValue, MovingAverage.getNumberOfSamples,
      MovingAverage.getAverage, h6.num, h6.sum]

/-! ### Values of the rate computations -/

theorem toRat_CpmToNanoSvh : F32.toRat CpmToNanoSvh = 747147 / 131072 := by
  have h : CpmToNanoSvh = ⟨11954352, -21⟩ := by decide
  rw [h, F32.toRat]
  norm_num

theorem doseProduct_within (x : F32) :
    F32.toRat x * (747147 / 131072) * (1 - 1 / 16777216)
      ≤ F32.toRat (F32.mul x CpmToNanoSvh) ∧
    F32.toRat (F32.mul x CpmToNanoSvh)
      ≤ F32.toRat x * (747147 / 131072) * (1 + 1 / 16777216) := by
  have h := F32.mul_within x CpmToNanoSvh
  rw [toRat_CpmToNanoSvh] at h
  exact h

theorem timerDose_within (c : Nat) :
    (c : ℚ) * (747147 / 131072) * (1 - 1 / 4194304)
      ≤ F32.toRat (F32.mul (F32.ofNat c) CpmToNanoSvh) ∧
    F32.toRat (F32.mul (F32.ofNat c) CpmToNanoSvh)
      ≤ (c : ℚ) * (747147 / 131072) * (1 + 1 / 4194304) := by
  have hC : (747147 / 131072 : ℚ) * 1 ≤ 747147 / 131072 ∧
      (747147 / 131072 : ℚ) ≤ 747147 / 131072 * 1 := by norm_num
  have h1 := F32.within_mul (by positivity : (0 : ℚ) ≤ c) (by norm_num) (by norm_num)
    (by norm_num) (F32.ofNat_within c) hC
  have h2 := F32.within_trans (by norm_num) (by norm_num) h1
    (doseProduct_within (F32.ofNat c))
  have hX : (0 : ℚ) ≤ (c : ℚ) * (747147 / 131072) := by positivity
  constructor
  · refine le_trans (mul_le_mul_of_nonneg_left ?_ hX) h2.1
    norm_num
  · refine le_trans h2.2 (mul_le_mul_of_nonneg_left ?_ hX)
    norm_num

/-- The conversion factor of `getRateAverage` is defined, and its product with the running sum
is within relative error `2 ^ (-21)` of `60000 * S / (SampleIntervalMs * n)`. -/
theorem rateAverageValue_within (s : Geiger) :
    ∃ scale : F32,
      F32.div (F32.ofNat 60000) (F32.mul (F32.ofNat SampleIntervalMs)
        (F32.ofNat (max 1 s.mAverage.getNumberOfSamples))) = some scale ∧
      rateAverageValue s = some (F32.mul scale (F32.ofNat s.mAverage.getAverage)) ∧
      (60000 : ℚ) * s.mAverage.getAverage
          / (SampleIntervalMs * (max 1 s.mAverage.getNumberOfSamples : Nat)) * (1 - 1 / 2097152)
        ≤ F32.toRat (F32.mul scale (F32.ofNat s.mAverage.getAverage)) ∧
      F32.toRat (F32.mul scale (F32.ofNat s.mAverage.getAverage))
        ≤ (60000 : ℚ) * s.mAverage.getAverage
          / (SampleIntervalMs * (max 1 s.mAverage.getNumberOfSamples : Nat))
          * (1 + 1 / 2097152) := by
  have hval : rateAverageValue s
      = (F32.div (F32.ofNat 60000) (F32.mul (F32.ofNat SampleIntervalMs)
          (F32.ofNat (max 1 s.mAverage.getNumberOfSamples)))).map
        (fun t => F32.mul t (F32.ofNat s.mAverage.getAverage)) := rfl
  rw [hval]
  generalize hn : max 1 s.mAverage.getNumberOfSamples = n
  have hn1 : 1 ≤ n := by omega
  generalize s.mAverage.getAverage = S
  have hne : (F32.mul (F32.ofNat SampleIntervalMs) (F32.ofNat n)).m ≠ 0 :=
    F32.mul_m_ne_zero _ _ (F32.ofNat_m_ne_zero _ (by decide)) (F32.ofNat_m_ne_zero _ (by omega))
  have h60 : F32.toRat (F32.ofNat 60000) = 60000 := by
    have h : F32.ofNat 60000 = ⟨15360000, -8⟩ := by decide
    rw [h, F32.toRat]; norm_num
  have h3 : F32.toRat (F32.ofNat SampleIntervalMs) = 3000 := by
    have h : F32.ofNat SampleIntervalMs = ⟨12288000, -12⟩ := by decide
    rw [h, F32.toRat]; norm_num
  have hnQ : (1 : ℚ) ≤ n := by exact_mod_cast hn1
  have hSQ : (0 : ℚ) ≤ S := by positivity
  -- the divisor
  have h3w : (3000 : ℚ) * 1 ≤ F32.toRat (F32.ofNat SampleIntervalMs) ∧
      F32.toRat (F32.ofNat SampleIntervalMs) ≤ 3000 * 1 := by rw [h3]; norm_num
  have h60w : (60000 : ℚ) * 1 ≤ F32.toRat (F32.ofNat 60000) ∧
      F32.toRat (F32.ofNat 60000) ≤ 60000 * 1 := by rw [h60]; norm_num
  have hd := F32.within_mul (by norm_num) (by positivity : (0 : ℚ) ≤ n) (by norm_num)
    (by norm_num : (0 : ℚ) ≤ 1 - 1 / 16777216) h3w (F32.ofNat_within n)
  have hd2 := F32.within_trans (by norm_num) (by norm_num) hd
    (F32.mul_within (F32.ofNat SampleIntervalMs) (F32.ofNat n))
  -- the factor
  have hq := F32.within_div (by norm_num) (by positivity : (0 : ℚ) < 3000 * n) (by norm_num)
    (by norm_num) h60w hd2
  obtain ⟨scale, hscale, hsc⟩ := F32.div_within (F32.ofNat 60000)
    (F32.mul (F32.ofNat SampleIntervalMs) (F32.ofNat n)) hne
  have hsc2 := F32.within_trans (by norm_num) (by norm_num) hq hsc
  -- the product with the running sum
  have hp := F32.within_mul (by positivity) hSQ (by norm_num) (by norm_num) hsc2
    (F32.ofNat_within S)
  have hp2 := F32.within_trans (by norm_num) (by norm_num) hp
    (F32.mul_within scale (F32.ofNat S))
  refine ⟨scale, hscale, by simp only [hscale, Option.map_some'], ?_, ?_⟩
  · refine le_trans ?_ hp2.1
    have hX : (0 : ℚ) ≤ 60000 / (3000 * n) * S := by positivity
    have : (60000 : ℚ) * S / (SampleIntervalMs * n) = 60000 / (3000 * n) * S := by
      simp only [SampleIntervalMs]; push_cast; ring
    rw [this]
    apply mul_le_mul_of_nonneg_left _ hX
    norm_num
  · refine le_trans hp2.2 ?_
    have hX : (0 : ℚ) ≤ 60000 / (3000 * n) * S := by positivity
    have : (60000 : ℚ) * S / (SampleIntervalMs * n) = 60000 / (3000 * n) * S := by
      simp only [SampleIntervalMs]; push_cast; ring
    rw [this]
    apply mul_le_mul_of_nonneg_left _ hX
    norm_num

/-! ### Contract of the estimator -/

/-- C5: `resetCount()` starts a new epoch from any prior state.  Afterwards the total counter
and the bucket are `0`, the interval index is `1`, the averager reports no samples and sum `0`,
and the epoch start is the clock value read in the call.  The outcome does not depend on the
prior state: these six values are the same from any other prior state, and from two prior
states (each holding an averager built by the constructor of `Geiger`) the same later
`addCount` calls lead to equal members, equal averager readings and equal results of both rate
queries. -/
theorem resetCount_new_epoch (s : Geiger) (millis : Nat) :
    (resetCount s millis).mTotalCount = 0 ∧
    (resetCount s millis).mIntervalCount = 0 ∧
    (resetCount s millis).mIntervalIndex = 1 ∧
    (resetCount s millis).mAverage.getNumberOfSamples = 0 ∧
    (resetCount s millis).mAverage.getAverage = 0 ∧
    (resetCount s millis).mStartTimeMs = millis ∧
    (∀ s' : Geiger,
      (resetCount s millis).mTotalCount = (resetCount s' millis).mTotalCount ∧
      (resetCount s millis).mIntervalCount = (resetCount s' millis).mIntervalCount ∧
      (resetCount s millis).mIntervalIndex = (resetCount s' millis).mIntervalIndex ∧
      (resetCount s millis).mAverage.getNumberOfSamples
        = (resetCount s' millis).mAverage.getNumberOfSamples ∧
      (resetCount s millis).mAverage.getAverage = (resetCount s' millis).mAverage.getAverage ∧
      (resetCount s millis).mStartTimeMs = (resetCount s' millis).mStartTimeMs) ∧
    ∀ s' : Geiger, MovingAverage.Reachable MovingAverageBuffSize s.mAverage →
      MovingAverage.Reachable MovingAverageBuffSize s'.mAverage →
      ∀ (calls : List (Nat × Nat)) (now : Nat),
        (run (resetCount s millis) calls).mTotalCount
          = (run (resetCount s' millis) calls).mTotalCount ∧
        (run (resetCount s millis) calls).mStartTimeMs
          = (run (resetCount s' millis) calls).mStartTimeMs ∧
        (run (resetCount s millis) calls).mIntervalCount
          = (run (resetCount s' millis) calls).mIntervalCount ∧
        (run (resetCount s millis) calls).mIntervalIndex
          = (run (resetCount s' millis) calls).mIntervalIndex ∧
        (run (resetCount s millis) calls).mAverage.getNumberOfSamples
          = (run (resetCount s' millis) calls).mAverage.getNumberOfSamples ∧
        (run (resetCount s millis) calls).mAverage.getAverage
          = (run (resetCount s' millis) calls).mAverage.getAverage ∧
        getRateTimer (run (resetCount s millis) calls) now
          = getRateTimer (run (resetCount s' millis) calls) now ∧
        getRateAverage (run (resetCount s millis) calls)
          = getRateAverage (run (resetCount s' millis) calls) := by
  refine ⟨rfl, rfl, rfl, rfl, rfl, rfl, fun _ => ⟨rfl, rfl, rfl, rfl, rfl, rfl⟩, ?_⟩
  intro s' hs hs' calls now
  have h := equiv_run (equiv_resetCount hs hs' millis) calls
  have hr := equiv_rates h now
  exact ⟨h.total, h.start, h.count, h.index, h.avg.num, h.avg.sum, hr.1, hr.2⟩

/-- Witness of `resetCount_new_epoch`: an estimator that has counted for a while and a newly
constructed one on a heap with other contents, both reset at clock value `50`. -/
theorem resetCount_new_epoch_witness :
    MovingAverage.Reachable MovingAverageBuffSize
      (run (resetCount (construct (fun _ => 9)) 0) [(10, 3), (3100, 4)]).mAverage ∧
    MovingAverage.Reachable MovingAverageBuffSize (construct (fun i => i)).mAverage ∧
    getRateAverage (run (resetCount
        (run (resetCount (construct (fun _ => 9)) 0) [(10, 3), (3100, 4)]) 50) [(60, 2), (3060, 1)])
      = getRateAverage (run (resetCount (construct (fun i => i)) 50) [(60, 2), (3060, 1)]) :=
  have h1 : MovingAverage.Reachable MovingAverageBuffSize
      (run (resetCount (construct (fun _ => 9)) 0) [(10, 3), (3100, 4)]).mAverage :=
    MovingAverage.Reachable.add 3 (MovingAverage.Reachable.reset
      (MovingAverage.Reachable.construct _)) (by decide)
  have h2 : MovingAverage.Reachable MovingAverageBuffSize (construct (fun i => i)).mAverage :=
    MovingAverage.Reachable.construct _
  ⟨h1, h2,
    ((resetCount_new_epoch _ 50).2.2.2.2.2.2.2 _ h1 h2 [(60, 2), (3060, 1)] 0).2.2.2.2.2.2.2⟩

/-- C6: division-by-zero guard of the cumulative estimator.  When fewer than 1000 ms have
elapsed since the epoch start, `getRateTimer()` returns `cpm = 0` and `doseRate = 0` whatever
the total counter holds; both outputs are defined, so the division by the zero count of seconds
is not carried out. -/
theorem getRateTimer_zero_seconds (s : Geiger) (millis : Nat) (h : elapsedMs s millis < 1000) :
    getRateTimer s millis = { cpm := some 0, nsv_h := some 0 } := by
  have hsec : elapsedMs s millis / 1000 = 0 := Nat.div_eq_of_lt h
  have hzero : F32.toUInt32 (F32.mul (F32.ofNat 0) CpmToNanoSvh) = some 0 := by decide
  simp only [getRateTimer, hsec, ne_eq, not_true_eq_false, if_false, Option.map_some',
    Option.some_bind, hzero]

/-- Witness of `getRateTimer_zero_seconds`: 999 ms into an epoch that started just before the
clock rolled over, with 123456 events counted. -/
theorem getRateTimer_zero_seconds_witness :
    elapsedMs ⟨123456, 4294967000, 5, 1, MovingAverage.construct 10 (fun _ => 0)⟩ 703 < 1000 ∧
    getRateTimer ⟨123456, 4294967000, 5, 1, MovingAverage.construct 10 (fun _ => 0)⟩ 703
      = { cpm := some 0, nsv_h := some 0 } :=
  ⟨by decide, getRateTimer_zero_seconds _ 703 (by decide)⟩

/-- The smallest total at which the product `mTotalCount*60` overflows: with 71582789 events
and one elapsed second `getRateTimer()` returns `cpm = 44`, the quotient of the wrapped 32-bit
product, not the quotient `4294967340` of the true product. -/
theorem getRateTimer_cpm_true_product_fails :
    elapsedMs wrappedProductState 1000 / 1000 = 1 ∧
    (getRateTimer wrappedProductState 1000).cpm = some 44 ∧
    wrappedProductState.mTotalCount * 60 / (elapsedMs wrappedProductState 1000 / 1000)
      = 4294967340 := by
  decide

/-- The value `getRateTimer()` computes.  For every total counter and every clock reading with
`elapsedSeconds = floor(((now - epochStart) mod 2^32) / 1000) ≥ 1` the code returns
`cpm = floor(((totalEvents * 60) mod 2^32) / elapsedSeconds)`; this is the count rate
`floor(totalEvents * 60 / elapsedSeconds)` whenever the product does not overflow,
`totalEvents * 60 < 2^32`, that is for `totalEvents ≤ 71582788`. -/
theorem getRateTimer_cpm (s : Geiger) (millis : Nat) (h : 1 ≤ elapsedMs s millis / 1000) :
    (getRateTimer s millis).cpm
      = some ((s.mTotalCount * 60) % 4294967296 / (elapsedMs s millis / 1000)) ∧
    (s.mTotalCount * 60 < 4294967296 →
      (getRateTimer s millis).cpm = some (s.mTotalCount * 60 / (elapsedMs s millis / 1000))) ∧
    (s.mTotalCount * 60 < 4294967296 ↔ s.mTotalCount ≤ 71582788) := by
  have hne : elapsedMs s millis / 1000 ≠ 0 := by omega
  have h1 : (getRateTimer s millis).cpm
      = some ((s.mTotalCount * 60) % 4294967296 / (elapsedMs s millis / 1000)) := by
    simp only [getRateTimer, udiv, if_pos hne, if_neg hne]
  refine ⟨h1, ?_, by omega⟩
  intro hlt
  rw [h1, Nat.mod_eq_of_lt hlt]

/-- Witness of `getRateTimer_cpm`, the example of the specification: after `resetCount()` and
three `addCount(5)` calls one second apart the total is 15, and at 3 elapsed seconds
`getRateTimer()` returns `cpm = 15 * 60 / 3 = 300`. -/
theorem getRateTimer_cpm_witness :
    (run (resetCount (construct (fun _ => 0)) 0) [(1000, 5), (2000, 5), (3000, 5)]).mTotalCount
      = 15 ∧
    elapsedMs (run (resetCount (construct (fun _ => 0)) 0) [(1000, 5), (2000, 5), (3000, 5)])
      3000 / 1000 = 3 ∧
    (getRateTimer (run (resetCount (construct (fun _ => 0)) 0)
      [(1000, 5), (2000, 5), (3000, 5)]) 3000).cpm = some 300 :=
  ⟨by decide, by decide,
    ((getRateTimer_cpm (run (resetCount (construct (fun _ => 0)) 0)
      [(1000, 5), (2000, 5), (3000, 5)]) 3000 (by decide)).2.1 (by decide)).trans (by decide)⟩

/-- C8, counterexample.  One event counted and 60 s elapsed: `getRateTimer()` returns `cpm = 1`
and `doseRate = 5`, while `round(1 * 5.7002793) = 6`. -/
theorem getRateTimer_dose_not_rounded :
    getRateTimer (run (resetCount (construct (fun _ => 0)) 0) [(100, 1)]) 60000
      = { cpm := some 1, nsv_h := some 5 } ∧
    specRoundedDoseRate 1 = 6 := by
  refine ⟨by decide, ?_⟩
  unfold specRoundedDoseRate
  rw [round_eq, Int.floor_eq_iff]
  norm_num

/-- C8, amended: the dose rate of the cumulative estimator is truncated.  For every state and
clock reading `getRateTimer()` returns a defined `cpm`, and the returned `doseRate` is the
single-precision product of `cpm` and the tube constant (the `float` nearest to `5.7002793`,
which is `747147 / 131072`) with its fractional part discarded: the floor of that product when
it is below `2^32`, and undefined otherwise.  The single-precision product is within relative
error `2 ^ (-22)` of `cpm * 747147 / 131072`, so the dose rate is defined for every
`cpm ≤ 750000000`. -/
theorem getRateTimer_dose_truncated (s : Geiger) (millis : Nat) :
    ∃ c : Nat, (getRateTimer s millis).cpm = some c ∧
      (getRateTimer s millis).nsv_h = F32.toUInt32 (F32.mul (F32.ofNat c) CpmToNanoSvh) ∧
      (getRateTimer s millis).nsv_h =
        (if ⌊F32.toRat (F32.mul (F32.ofNat c) CpmToNanoSvh)⌋₊ < 4294967296
          then some ⌊F32.toRat (F32.mul (F32.ofNat c) CpmToNanoSvh)⌋₊ else none) ∧
      (c : ℚ) * (747147 / 131072) * (1 - 1 / 4194304)
        ≤ F32.toRat (F32.mul (F32.ofNat c) CpmToNanoSvh) ∧
      F32.toRat (F32.mul (F32.ofNat c) CpmToNanoSvh)
        ≤ (c : ℚ) * (747147 / 131072) * (1 + 1 / 4194304) ∧
      (c ≤ 750000000 → (getRateTimer s millis).nsv_h
        = some ⌊F32.toRat (F32.mul (F32.ofNat c) CpmToNanoSvh)⌋₊) := by
  have hmain : ∀ c : Nat, (getRateTimer s millis).cpm = some c →
      (getRateTimer s millis).nsv_h = F32.toUInt32 (F32.mul (F32.ofNat c) CpmToNanoSvh) := by
    intro c hc
    simp only [getRateTimer] at hc ⊢
    rw [hc]
    rfl
  have hex : ∃ c : Nat, (getRateTimer s millis).cpm = some c := by
    by_cases hsec : elapsedMs s millis / 1000 = 0
    · exact ⟨0, by simp [getRateTimer, hsec]⟩
    · exact ⟨(s.mTotalCount * 60) % 4294967296 / (elapsedMs s millis / 1000),
        by simp [getRateTimer, udiv, hsec]⟩
  obtain ⟨c, hc⟩ := hex
  have hd := hmain c hc
  have hfl := F32.toUInt32_eq_floor (F32.mul (F32.ofNat c) CpmToNanoSvh)
  have hw := timerDose_within c
  refine ⟨c, hc, hd, hd.trans hfl, hw.1, hw.2, ?_⟩
  intro hle
  rw [hd, hfl, if_pos]
  rw [Nat.floor_lt (le_trans (by positivity) hw.1)]
  have hcQ : (c : ℚ) ≤ 750000000 := by exact_mod_cast hle
  have h0 : (0 : ℚ) ≤ c := by positivity
  push_cast
  nlinarith [hw.2]

/-- C9: warm-up normalisation of the moving-average estimator.  For every state, with running
sum `S` and `n = max(1, getNumberOfSamples())`, the factor `60000 / (SampleIntervalMs * n)` is
defined (the divisor is not zero) and `getRateAverage()` returns as `cpm` the single-precision
product of that factor and `S` with the fractional part discarded (undefined if it is `2^32` or
more).  The product is within relative error `2 ^ (-21)` of the number
`60000 * S / (SampleIntervalMs * n)`, so `cpm` is defined whenever `S` is the sum of at most 255
16-bit samples; the capacity of the averager does not occur.  With `n = 2` and `S = 20` the
result is `200`. -/
theorem getRateAverage_cpm (s : Geiger) :
    ∃ scale : F32,
      F32.div (F32.ofNat 60000) (F32.mul (F32.ofNat SampleIntervalMs)
        (F32.ofNat (max 1 s.mAverage.getNumberOfSamples))) = some scale ∧
      (getRateAverage s).cpm = F32.toUInt32 (F32.mul scale (F32.ofNat s.mAverage.getAverage)) ∧
      (getRateAverage s).cpm =
        (if ⌊F32.toRat (F32.mul scale (F32.ofNat s.mAverage.getAverage))⌋₊ < 4294967296
          then some ⌊F32.toRat (F32.mul scale (F32.ofNat s.mAverage.getAverage))⌋₊ else none) ∧
      (60000 : ℚ) * s.mAverage.getAverage
          / (SampleIntervalMs * (max 1 s.mAverage.getNumberOfSamples : Nat)) * (1 - 1 / 2097152)
        ≤ F32.toRat (F32.mul scale (F32.ofNat s.mAverage.getAverage)) ∧
      F32.toRat (F32.mul scale (F32.ofNat s.mAverage.getAverage))
        ≤ (60000 : ℚ) * s.mAverage.getAverage
          / (SampleIntervalMs * (max 1 s.mAverage.getNumberOfSamples : Nat))
          * (1 + 1 / 2097152) ∧
      (s.mAverage.getAverage ≤ 65535 * 255 → (getRateAverage s).cpm
        = some ⌊F32.toRat (F32.mul scale (F32.ofNat s.mAverage.getAverage))⌋₊) ∧
      (s.mAverage.getNumberOfSamples = 2 → s.mAverage.getAverage = 20 →
        (getRateAverage s).cpm = some 200) := by
  obtain ⟨scale, hscale, hval, hlo, hhi⟩ := rateAverageValue_within s
  have hcpm : (getRateAverage s).cpm
      = F32.toUInt32 (F32.mul scale (F32.ofNat s.mAverage.getAverage)) := by
    simp only [getRateAverage, hval, Option.some_bind]
  have hfl := F32.toUInt32_eq_floor (F32.mul scale (F32.ofNat s.mAverage.getAverage))
  refine ⟨scale, hscale, hcpm, hcpm.trans hfl, hlo, hhi, ?_, ?_⟩
  · intro hS
    rw [hcpm, hfl, if_pos]
    rw [Nat.floor_lt (le_trans (by positivity) hlo)]
    refine lt_of_le_of_lt hhi ?_
    have hn : (1 : ℚ) ≤ (max 1 s.mAverage.getNumberOfSamples : Nat) := by
      exact_mod_cast Nat.le_max_left 1 _
    have hSQ : (s.mAverage.getAverage : ℚ) ≤ 65535 * 255 := by exact_mod_cast hS
    have hS0 : (0 : ℚ) ≤ s.mAverage.getAverage := by positivity
    generalize ((max 1 s.mAverage.getNumberOfSamples : Nat) : ℚ) = n at hn ⊢
    generalize (s.mAverage.getAverage : ℚ) = S at hSQ hS0 ⊢
    have hX : (60000 : ℚ) * S / (SampleIntervalMs * n) ≤ 20 * S := by
      have h3 : ((SampleIntervalMs : Nat) : ℚ) = 3000 := by simp [SampleIntervalMs]
      rw [h3, div_le_iff₀ (by positivity)]
      nlinarith [mul_nonneg hS0 (sub_nonneg.mpr hn)]
    norm_num
    linarith
  · intro h2 h20
    simp only [getRateAverage, rateAverageValue, h2, h20]
    decide

/-- Witness of `getRateAverage_cpm`, the example of the specification: an averager of capacity
10 holding the two samples 8 and 12 gives `cpm = 200`, not `40`. -/
theorem getRateAverage_cpm_witness :
    (run (resetCount (construct (fun _ => 0)) 0)
      [(0, 8), (3000, 12), (6000, 0)]).mAverage.mSize = 10 ∧
    (run (resetCount (construct (fun _ => 0)) 0)
      [(0, 8), (3000, 12), (6000, 0)]).mAverage.getNumberOfSamples = 2 ∧
    (run (resetCount (construct (fun _ => 0)) 0)
      [(0, 8), (3000, 12), (6000, 0)]).mAverage.getAverage = 20 ∧
    (getRateAverage (run (resetCount (construct (fun _ => 0)) 0)
      [(0, 8), (3000, 12), (6000, 0)])).cpm = some 200 :=
  ⟨by decide, by decide, by decide,
    (getRateAverage_cpm (run (resetCount (construct (fun _ => 0)) 0)
      [(0, 8), (3000, 12), (6000, 0)])).elim
      (fun _ h => h.2.2.2.2.2.2 (by decide) (by decide))⟩

/-- C10, counterexample.  After the buckets 1, 0, 0 have been flushed, ten seconds into the
epoch, both estimators return `cpm = 6`, the cumulative one with `doseRate = 34` and the
moving-average one with `doseRate = 38`. -/
theorem dose_rates_differ_for_equal_cpm :
    getRateTimer (run (resetCount (construct (fun _ => 0)) 0)
      [(0, 1), (3000, 0), (6000, 0), (9000, 0)]) 10000 = { cpm := some 6, nsv_h := some 34 } ∧
    getRateAverage (run (resetCount (construct (fun _ => 0)) 0)
      [(0, 1), (3000, 0), (6000, 0), (9000, 0)]) = { cpm := some 6, nsv_h := some 38 } := by
  decide

/-- C10, amended: dose-rate consistency.  The dose rate of `getRateTimer()` is a function of
the `cpm` it returns: the single-precision product of `cpm` and the tube constant, truncated.
The dose rate of `getRateAverage()` is the truncated product of the tube constant and the
single-precision `cpm` value before that value is truncated.  So for every pair of states in
which both estimators return `cpm = c` and the untruncated value in `getRateAverage()` is the
whole number `c`, both return the same dose rate, the truncated single-precision product of `c`
and the tube constant. -/
theorem dose_rate_consistency (s₁ : Geiger) (millis : Nat) (s₂ : Geiger) (c : Nat)
    (h₁ : (getRateTimer s₁ millis).cpm = some c)
    (_h₂ : (getRateAverage s₂).cpm = some c)
    (h₃ : rateAverageValue s₂ = some (F32.ofNat c)) :
    (getRateTimer s₁ millis).nsv_h = (getRateAverage s₂).nsv_h ∧
    (getRateTimer s₁ millis).nsv_h = F32.toUInt32 (F32.mul (F32.ofNat c) CpmToNanoSvh) ∧
    (getRateAverage s₂).nsv_h = F32.toUInt32 (F32.mul (F32.ofNat c) CpmToNanoSvh) ∧
    (getRateAverage s₂).nsv_h =
      (if ⌊F32.toRat (F32.mul (F32.ofNat c) CpmToNanoSvh)⌋₊ < 4294967296
        then some ⌊F32.toRat (F32.mul (F32.ofNat c) CpmToNanoSvh)⌋₊ else none) := by
  have ht : (getRateTimer s₁ millis).nsv_h
      = F32.toUInt32 (F32.mul (F32.ofNat c) CpmToNanoSvh) := by
    simp only [getRateTimer] at h₁ ⊢
    rw [h₁]
    rfl
  have ha : (getRateAverage s₂).nsv_h
      = F32.toUInt32 (F32.mul (F32.ofNat c) CpmToNanoSvh) := by
    simp only [getRateAverage, h₃]
    rfl
  refine ⟨ht.trans ha.symm, ht, ha, ?_⟩
  rw [← F32.toUInt32_eq_floor]
  exact ha

/-- Witness of `dose_rate_consistency`: 10 events in 3 s on one side, the two samples 8 and 12
on the other; both estimators return `cpm = 200` and `doseRate = 1140`. -/
theorem dose_rate_consistency_witness :
    (getRateTimer (run (resetCount (construct (fun _ => 0)) 0) [(500, 10)]) 3000).cpm
      = some 200 ∧
    (getRateAverage (run (resetCount (construct (fun _ => 0)) 0)
      [(0, 8), (3000, 12), (6000, 0)])).cpm = some 200 ∧
    rateAverageValue (run (resetCount (construct (fun _ => 0)) 0)
      [(0, 8), (3000, 12), (6000, 0)]) = some (F32.ofNat 200) ∧
    (getRateTimer (run (resetCount (construct (fun _ => 0)) 0) [(500, 10)]) 3000).nsv_h
      = some 1140 ∧
    (getRateAverage (run (resetCount (construct (fun _ => 0)) 0)
      [(0, 8), (3000, 12), (6000, 0)])).nsv_h = some 1140 :=
  have h := dose_rate_consistency (run (resetCount (construct (fun _ => 0)) 0) [(500, 10)]) 3000
    (run (resetCount (construct (fun _ => 0)) 0) [(0, 8), (3000, 12), (6000, 0)]) 200
    (by decide) (by decide) (by decide)
  ⟨by decide, by decide, by decide, h.2.1.trans (by decide), h.2.2.1.trans (by decide)⟩

end Geiger

namespace MovingAverage

/-! ### Bounds of the averager -/

theorem exec_bounds (N : Nat) (hN1 : 1 ≤ N) (hN : N ≤ 255) (heap : Nat → Nat)
    (calls : List Call) :
    (exec (construct N heap) calls).mSize = N ∧
    (exec (construct N heap) calls).mSamples.length = N ∧
    (exec (construct N heap) calls).mNumSamples = min (addsSinceReset calls) N ∧
    (exec (construct N heap) calls).mIndex = addsSinceReset calls % N := by
  induction calls using List.reverseRecOn with
  | nil => simp [exec, construct, reset, addsSinceReset]
  | append_singleton cs c ih =>
    obtain ⟨h1, h2, h3, h4⟩ := ih
    have hexec : exec (construct N heap) (cs ++ [c]) = step (exec (construct N heap) cs) c := by
      simp [exec, List.foldl_append]
    rw [hexec]
    cases c with
    | reset => simp [step, reset, addsSinceReset, List.foldl_append, h1, h2]
    | add v =>
      have hk : addsSinceReset (cs ++ [Call.add v]) = addsSinceReset cs + 1 := by
        simp [addsSinceReset, List.foldl_append]
      have hmod : addsSinceReset cs % N < N := Nat.mod_lt _ (by omega)
      rw [hk]
      refine ⟨by simpa [step, add] using h1, by simpa [step, add] using h2, ?_, ?_⟩
      · simp only [step, add, h1, h3]
        split <;> omega
      · simp only [step, add, h1, h4]
        rw [Nat.mod_eq_of_lt (show addsSinceReset cs % N + 1 < 256 by omega),
          Nat.add_mod (addsSinceReset cs) 1 N]
        simp

/-- C12: bounds invariant of `MovingAverage`.  For every capacity `1 ≤ N ≤ 255` and every state
reached from construction by a sequence of `add` and `reset` calls, `getNumberOfSamples()` is the
number of `add` calls since the last `reset`, saturated at `N`, so it lies between `0` and `N`;
an `add` never decreases it.  The cursor is that number of calls modulo `N`; it is below `N`,
the length of the sample buffer, so the read and the write of `add` are in bounds. -/
theorem bounds_invariant (N : Nat) (hN1 : 1 ≤ N) (hN : N ≤ 255) (heap : Nat → Nat)
    (calls : List Call) :
    getNumberOfSamples (exec (construct N heap) calls) = min (addsSinceReset calls) N ∧
    0 ≤ getNumberOfSamples (exec (construct N heap) calls) ∧
    getNumberOfSamples (exec (construct N heap) calls) ≤ N ∧
    (exec (construct N heap) calls).mIndex = addsSinceReset calls % N ∧
    (exec (construct N heap) calls).mIndex < N ∧
    (exec (construct N heap) calls).mIndex < (exec (construct N heap) calls).mSamples.length ∧
    (∀ val : Nat, getNumberOfSamples (exec (construct N heap) calls)
      ≤ getNumberOfSamples (exec (construct N heap) (calls ++ [Call.add val]))) ∧
    (getNumberOfSamples (exec (construct N heap) calls) = N →
      ∀ val : Nat, getNumberOfSamples (exec (construct N heap) (calls ++ [Call.add val])) = N) ∧
    getNumberOfSamples (exec (construct N heap) (calls ++ [Call.reset])) = 0 := by
  obtain ⟨h1, h2, h3, h4⟩ := exec_bounds N hN1 hN heap calls
  have hmod : addsSinceReset calls % N < N := Nat.mod_lt _ (by omega)
  have hk : ∀ val, addsSinceReset (calls ++ [Call.add val]) = addsSinceReset calls + 1 := by
    intro val; simp [addsSinceReset, List.foldl_append]
  have hnext : ∀ val, getNumberOfSamples (exec (construct N heap) (calls ++ [Call.add val]))
      = min (addsSinceReset calls + 1) N := by
    intro val
    rw [getNumberOfSamples, (exec_bounds N hN1 hN heap (calls ++ [Call.add val])).2.2.1, hk]
  have hreset : getNumberOfSamples (exec (construct N heap) (calls ++ [Call.reset])) = 0 := by
    rw [getNumberOfSamples, (exec_bounds N hN1 hN heap (calls ++ [Call.reset])).2.2.1]
    simp [addsSinceReset, List.foldl_append]
  refine ⟨h3, Nat.zero_le _, ?_, h4, ?_, ?_, ?_, ?_, hreset⟩
  · rw [getNumberOfSamples, h3]; omega
  · rw [h4]; exact hmod
  · rw [h4, h2]; exact hmod
  · intro val; rw [hnext, getNumberOfSamples, h3]; omega
  · intro hfull val
    rw [getNumberOfSamples, h3] at hfull
    rw [hnext]; omega

/-- Witness of `bounds_invariant`: capacity 3, two values, a reset, then four values. -/
theorem bounds_invariant_witness :
    getNumberOfSamples (exec (construct 3 (fun _ => 7))
      [Call.add 5, Call.add 6, Call.reset, Call.add 1, Call.add 2, Call.add 3, Call.add 4]) = 3 ∧
    (exec (construct 3 (fun _ => 7))
      [Call.add 5, Call.add 6, Call.reset, Call.add 1, Call.add 2, Call.add 3, Call.add 4]).mIndex
      = 1 ∧
    getNumberOfSamples (exec (construct 3 (fun _ => 7))
      ([Call.add 5, Call.add 6, Call.reset, Call.add 1, Call.add 2, Call.add 3, Call.add 4]
        ++ [Call.add 9])) = 3 :=
  have h := bounds_invariant 3 (by decide) (by decide) (fun _ => 7)
    [Call.add 5, Call.add 6, Call.reset, Call.add 1, Call.add 2, Call.add 3, Call.add 4]
  ⟨h.1.trans (by decide), h.2.2.2.1.trans (by decide), h.2.2.2.2.2.2.2.1 (by decide) 9⟩

end MovingAverage

namespace Geiger

/-- C11: clock rollover is handled by unsigned difference arithmetic.  For every state with a
32-bit epoch start `s` and every elapsed time `e < 2^32`, the 32-bit difference between the clock
reading `(s + e) mod 2^32` and `s` is `e`; `addCount(num)` at that reading leaves every member
other than the epoch start as it leaves it for epoch start `0` and clock reading `e`, the epoch
start itself staying `s`, and `getRateTimer()` returns the same outputs. -/
theorem clock_rollover (st : Geiger) (e num : Nat) (hs : st.mStartTimeMs < 4294967296)
    (he : e < 4294967296) :
    elapsedMs st ((st.mStartTimeMs + e) % 4294967296) = e ∧
    elapsedMs (atStart st 0) e = e ∧
    addCount st ((st.mStartTimeMs + e) % 4294967296) num
      = atStart (addCount (atStart st 0) e num) st.mStartTimeMs ∧
    (addCount st ((st.mStartTimeMs + e) % 4294967296) num).mStartTimeMs = st.mStartTimeMs ∧
    (addCount (atStart st 0) e num).mStartTimeMs = 0 ∧
    getRateTimer st ((st.mStartTimeMs + e) % 4294967296) = getRateTimer (atStart st 0) e := by
  have h1 : elapsedMs st ((st.mStartTimeMs + e) % 4294967296) = e := by
    simp only [elapsedMs]; omega
  have h2 : elapsedMs (atStart st 0) e = e := by
    simp only [elapsedMs, atStart]; omega
  have hidx : (atStart st 0).mIntervalIndex = st.mIntervalIndex := rfl
  refine ⟨h1, h2, ?_, ?_, ?_, ?_⟩
  · by_cases hc : (st.mIntervalIndex * SampleIntervalMs) % 4294967296 ≤ e
    · simp only [addCount, h1, h2, hidx, if_pos hc]; rfl
    · simp only [addCount, h1, h2, hidx, if_neg hc]; rfl
  · simp only [addCount]
    split <;> rfl
  · simp only [addCount]
    split <;> rfl
  · simp only [getRateTimer, h1, h2]
    rfl

/-- Witness of `clock_rollover`: the epoch starts 296 ms before the clock rolls over and the
clock is read 3296 ms later, at `3000`, a reading below the epoch start. -/
theorem clock_rollover_witness :
    (4294967000 + 3296) % 4294967296 = 3000 ∧
    getRateTimer ⟨50, 4294967000, 7, 1, MovingAverage.construct 10 (fun _ => 0)⟩ 3000
      = getRateTimer ⟨50, 0, 7, 1, MovingAverage.construct 10 (fun _ => 0)⟩ 3296 ∧
    addCount ⟨50, 4294967000, 7, 1, MovingAverage.construct 10 (fun _ => 0)⟩ 3000 4
      = atStart (addCount ⟨50, 0, 7, 1, MovingAverage.construct 10 (fun _ => 0)⟩ 3296 4)
          4294967000 :=
  have h := clock_rollover ⟨50, 4294967000, 7, 1, MovingAverage.construct 10 (fun _ => 0)⟩
    3296 4 (by decide) (by decide)
  ⟨by decide, h.2.2.2.2.2, h.2.2.1⟩

end Geiger


/-! ### LoopTimer -/

theorem toULong_of_nonneg (ms : Int) (h0 : 0 ≤ ms) (h1 : ms < 2147483648) :
    toULong ms = ms.toNat := by
  unfold toULong
  omega

namespace LoopTimer

theorem fire_pairwise (ms : Int) (h0 : 0 ≤ ms) (h1 : ms < 2147483648) (ts : List Nat) :
    ∀ (p : Nat) (s : LoopTimer), s.mPrevMillis = p % 4294967296 → (∀ b ∈ ts, p ≤ b) →
      ts.Pairwise (fun a b => a ≤ b) →
      (p :: fireTimes ms s ts).Pairwise (fun a b => a + ms.toNat ≤ b) ∧
      (runExpired ms s ts).mPrevMillis = (fireTimes ms s ts).getLastD p % 4294967296 := by
  induction ts with
  | nil =>
    intro p s hs _ _
    simp [fireTimes, runExpired, hs]
  | cons t ts ih =>
    intro p s hs hp hsorted
    have hpt : p ≤ t := hp t (List.mem_cons_self t ts)
    have hts : ∀ b ∈ ts, t ≤ b := (List.pairwise_cons.mp hsorted).1
    have hsorted' : ts.Pairwise (fun a b => a ≤ b) := (List.pairwise_cons.mp hsorted).2
    have hrun : runExpired ms s (t :: ts)
        = runExpired ms (expired s (t % 4294967296) ms).2 ts := rfl
    by_cases hfire : (expired s (t % 4294967296) ms).1 = true
    · have hstate : (expired s (t % 4294967296) ms).2 = { mPrevMillis := t % 4294967296 } := by
        simp only [expired] at hfire ⊢
        rw [if_pos hfire]
      have hgap : p + ms.toNat ≤ t := by
        simp only [expired, decide_eq_true_eq, toULong_of_nonneg ms h0 h1, hs] at hfire
        omega
      obtain ⟨ih1, ih2⟩ := ih t (expired s (t % 4294967296) ms).2 (by rw [hstate]) hts hsorted'
      simp only [fireTimes, if_pos hfire]
      refine ⟨?_, ?_⟩
      · rw [List.pairwise_cons]
        refine ⟨?_, ih1⟩
        intro b hb
        rcases List.mem_cons.mp hb with hb | hb
        · rw [hb]; exact hgap
        · have := (List.pairwise_cons.mp ih1).1 b hb
          omega
      · rw [hrun, ih2]
        cases hft : fireTimes ms (expired s (t % 4294967296) ms).2 ts <;> simp [List.getLastD]
    · have hstate : (expired s (t % 4294967296) ms).2 = s := by
        simp only [expired] at hfire ⊢
        rw [if_neg hfire]
      obtain ⟨ih1, ih2⟩ := ih p s hs (fun b hb => hp b (List.mem_cons_of_mem t hb)) hsorted'
      simp only [fireTimes, if_neg hfire, hstate]
      exact ⟨ih1, by rw [hrun, hstate, ih2]⟩

/-- C13: contract of `LoopTimer::expired(ms)` for `ms ≥ 0`.  The call returns true if and only
if the unsigned 32-bit difference `now - mPrevMillis` is at least `ms`; when it returns true it
sets `mPrevMillis` to the clock value, when it returns false the state is unchanged.  In a run
of `expired(ms)` calls at non-decreasing times after the construction at time `t0`,
`mPrevMillis` is the clock value of the construction or of the last call that returned true,
and the construction time followed by the times of the calls that returned true are pairwise
at least `ms` milliseconds apart. -/
theorem expired_contract (s : LoopTimer) (now : Nat) (ms : Int) (h0 : 0 ≤ ms)
    (h1 : ms < 2147483648) :
    ((expired s now ms).1 = true
      ↔ ms.toNat ≤ (now + 4294967296 - s.mPrevMillis) % 4294967296) ∧
    ((expired s now ms).1 = true → (expired s now ms).2.mPrevMillis = now) ∧
    ((expired s now ms).1 = false → (expired s now ms).2 = s) ∧
    ∀ (t0 : Nat) (ts : List Nat), (t0 :: ts).Pairwise (fun a b => a ≤ b) →
      (t0 :: fireTimes ms (construct (t0 % 4294967296)) ts).Pairwise
        (fun a b => a + ms.toNat ≤ b) ∧
      (runExpired ms (construct (t0 % 4294967296)) ts).mPrevMillis
        = (fireTimes ms (construct (t0 % 4294967296)) ts).getLastD t0 % 4294967296 := by
  refine ⟨?_, ?_, ?_, ?_⟩
  · simp only [expired, decide_eq_true_eq, toULong_of_nonneg ms h0 h1]
  · intro h
    simp only [expired] at h ⊢
    rw [if_pos h]
  · intro h
    simp only [expired] at h ⊢
    rw [if_neg (by simpa using h)]
  · intro t0 ts hsorted
    exact fire_pairwise ms h0 h1 ts t0 (construct (t0 % 4294967296)) rfl
      (List.pairwise_cons.mp hsorted).1 (List.pairwise_cons.mp hsorted).2

/-- Witness of `expired_contract`: a timer constructed at time `4294967000`, polled with
`ms = 1000` across the rollover of the clock. -/
theorem expired_contract_witness :
    (expired (construct 4294967000) 704 1000).1 = true ∧
    (expired (construct 4294967000) 704 1000).2.mPrevMillis = 704 ∧
    fireTimes 1000 (construct (4294967000 % 4294967296))
      [4294967500, 4294968000, 4294968400, 4294969100] = [4294968000, 4294969100] ∧
    (4294967000 :: fireTimes 1000 (construct (4294967000 % 4294967296))
      [4294967500, 4294968000, 4294968400, 4294969100]).Pairwise
        (fun a b => a + (1000 : Int).toNat ≤ b) :=
  have h := expired_contract (construct 4294967000) 704 1000 (by decide) (by decide)
  ⟨h.1.mpr (by decide), h.2.1 (h.1.mpr (by decide)), by decide,
    (h.2.2.2 4294967000 [4294967500, 4294968000, 4294968400, 4294969100] (by decide)).1⟩

theorem forceExpired_expired_iff (s : LoopTimer) (now : Nat) (ms : Int) (h0 : 0 ≤ ms)
    (h1 : ms < 2147483648) (hp : s.mPrevMillis < 4294967296) (hn : now < 4294967296) :
    (expired (forceExpired s ms) now ms).1 = true
      ↔ (now + 4294967296 - s.mPrevMillis) % 4294967296 + ms.toNat < 4294967296 ∨ ms = 0 := by
  simp only [expired, forceExpired, decide_eq_true_eq, toULong_of_nonneg ms h0 h1]
  omega

/-- C14, evaluation at the failing input.  The last expiry was at clock value `1000`; some 49.7
days later, at clock value `500` after the rollover, `forceExpired(1000)` sets `mPrevMillis` to
`0` and the next call `expired(1000)` returns false, leaving the timer unchanged. -/
theorem forceExpired_not_forced :
    (forceExpired { mPrevMillis := 1000 } 1000).mPrevMillis = 0 ∧
    (expired (forceExpired { mPrevMillis := 1000 } 1000) 500 1000).1 = false ∧
    (expired (forceExpired { mPrevMillis := 1000 } 1000) 500 1000).2
      = forceExpired { mPrevMillis := 1000 } 1000 := by
  decide

end LoopTimer


/-! ### DebounceButton -/

namespace DebounceButton

theorem lastLevel_append (rs : List (Nat × Nat)) (r : Nat × Nat) :
    lastLevel (rs ++ [r]) = r.1 := by
  simp [lastLevel]

theorem lastChange_append (rs : List (Nat × Nat)) (r : Nat × Nat) :
    lastChange (rs ++ [r]) = if r.1 ≠ lastLevel rs then some r.2 else lastChange rs := by
  induction rs using List.reverseRecOn with
  | nil => simp [lastChange, lastChangeRev, lastLevel]
  | append_singleton rs r' _ =>
    simp [lastChange, lastChangeRev, lastLevel]

theorem lastChange_some_ne_nil {rs : List (Nat × Nat)} {tc : Nat}
    (h : lastChange rs = some tc) : rs ≠ [] := by
  intro hnil
  rw [hnil] at h
  simp [lastChange, lastChangeRev] at h

theorem run_invariant (pin : Nat) (db : Int) (heap : Nat) (rs : List (Nat × Nat)) :
    (run (construct pin db heap) rs).mPreviousLev = lastLevel rs ∧
    (run (construct pin db heap) rs).mDebounceDelay = db ∧
    (lastChange rs = none → (run (construct pin db heap) rs).mLastSts = DBTN_KEYUP ∧
      lastLevel rs = HIGH) ∧
    (∀ tc, lastChange rs = some tc →
      (run (construct pin db heap) rs).mEventTime = tc % 4294967296) := by
  induction rs using List.reverseRecOn with
  | nil =>
    refine ⟨rfl, rfl, fun _ => ⟨rfl, rfl⟩, ?_⟩
    intro tc h
    exact absurd rfl (lastChange_some_ne_nil h)
  | append_singleton rs r ih =>
    obtain ⟨h1, h2, h3, h4⟩ := ih
    have hrun : run (construct pin db heap) (rs ++ [r])
        = (update (run (construct pin db heap) rs) r.1 (r.2 % 4294967296)).2 := by
      simp [run, List.foldl_append]
    rw [hrun, lastLevel_append, lastChange_append]
    generalize run (construct pin db heap) rs = s at h1 h2 h3 h4 ⊢
    by_cases hne : r.1 ≠ lastLevel rs
    · have hne' : r.1 ≠ s.mPreviousLev := by rw [h1]; exact hne
      simp only [update, if_pos hne', if_pos hne]
      refine ⟨trivial, h2, fun h => by simp at h, ?_⟩
      intro tc htc
      simp only [Option.some.injEq] at htc
      rw [← htc]
    · have heq : r.1 = lastLevel rs := by simpa using hne
      have hne' : ¬ r.1 ≠ s.mPreviousLev := by rw [h1]; exact hne
      simp only [if_neg hne]
      by_cases hst : toULong s.mDebounceDelay ≤ (r.2 % 4294967296 + 4294967296 - s.mEventTime) % 4294967296
      · simp only [update, if_neg hne', if_pos hst]
        refine ⟨trivial, h2, ?_, h4⟩
        intro hnone
        obtain ⟨_, hhigh⟩ := h3 hnone
        rw [heq, hhigh]
        exact ⟨by simp, rfl⟩
      · simp only [update, if_neg hne', if_neg hst]
        refine ⟨trivial, h2, ?_, h4⟩
        intro hnone
        obtain ⟨hk, hhigh⟩ := h3 hnone
        exact ⟨hk, by rw [heq, hhigh]⟩

/-- C15: `DebounceButton::update()` reports an event only for a stable level.  For every
debounce time `db_msec ≥ 0` and every sequence of readings from the constructed state: when a
call returns `DBTN_KEYUP` or `DBTN_KEYDOWN`, there is a previous call and it read the same
level, a level change has been observed earlier, the unsigned 32-bit time since the most recent
observed change is at least `db_msec` (so at least `db_msec` milliseconds have elapsed), and
the event is `DBTN_KEYUP` for `HIGH` and `DBTN_KEYDOWN` otherwise.  A call that reads a level
other than the previous one returns `DBTN_NOCHANGE`. -/
theorem update_event (pin : Nat) (db : Int) (h0 : 0 ≤ db) (h1 : db < 2147483648) (heap : Nat)
    (rs : List (Nat × Nat)) (lev time : Nat) :
    (((update (run (construct pin db heap) rs) lev (time % 4294967296)).1 = DBTN_KEYUP ∨
      (update (run (construct pin db heap) rs) lev (time % 4294967296)).1 = DBTN_KEYDOWN) →
      (∃ r, rs.getLast? = some r ∧ r.1 = lev) ∧
      (∃ tc, lastChange rs = some tc ∧
        db.toNat ≤ (time % 4294967296 + 4294967296 - tc % 4294967296) % 4294967296 ∧
        (tc ≤ time → tc + db.toNat ≤ time)) ∧
      (update (run (construct pin db heap) rs) lev (time % 4294967296)).1
        = (if lev = HIGH then DBTN_KEYUP else DBTN_KEYDOWN)) ∧
    (lev ≠ lastLevel rs →
      (update (run (construct pin db heap) rs) lev (time % 4294967296)).1 = DBTN_NOCHANGE) := by
  obtain ⟨hprev, hdelay, hnone, hsome⟩ := run_invariant pin db heap rs
  generalize run (construct pin db heap) rs = s at hprev hdelay hnone hsome ⊢
  constructor
  · intro hev
    by_cases hne : lev ≠ s.mPreviousLev
    · simp [update, hne, DBTN_NOCHANGE, DBTN_KEYUP, DBTN_KEYDOWN] at hev
    · have heq : lev = s.mPreviousLev := by simpa using hne
      by_cases hst : toULong s.mDebounceDelay
          ≤ (time % 4294967296 + 4294967296 - s.mEventTime) % 4294967296
      · simp only [update, if_neg hne, if_pos hst] at hev ⊢
        by_cases hsts : (if lev = HIGH then DBTN_KEYUP else DBTN_KEYDOWN) ≠ s.mLastSts
        · simp only [if_pos hsts]
          -- a change has been observed: otherwise the status would be the stored one
          have hchange : ∃ tc, lastChange rs = some tc := by
            cases hlc : lastChange rs with
            | some tc => exact ⟨tc, rfl⟩
            | none =>
              obtain ⟨hk, hhigh⟩ := hnone hlc
              exfalso
              apply hsts
              rw [hk, heq, hprev, hhigh]
              simp
          obtain ⟨tc, htc⟩ := hchange
          have hne_nil := lastChange_some_ne_nil htc
          refine ⟨?_, ⟨tc, htc, ?_, ?_⟩, trivial⟩
          · obtain ⟨r, hr⟩ : ∃ r, rs.getLast? = some r := by
              cases hl : rs.getLast? with
              | some r => exact ⟨r, rfl⟩
              | none => exact absurd (List.getLast?_eq_none_iff.mp hl) hne_nil
            refine ⟨r, hr, ?_⟩
            rw [heq, hprev]
            simp [lastLevel, hr]
          · rw [hsome tc htc, hdelay, toULong_of_nonneg db h0 h1] at hst
            exact hst
          · intro hle
            rw [hsome tc htc, hdelay, toULong_of_nonneg db h0 h1] at hst
            omega
        · rw [if_neg hsts] at hev
          exact absurd hev (by decide)
      · simp [update, hne, hst, DBTN_NOCHANGE, DBTN_KEYUP, DBTN_KEYDOWN] at hev
  · intro hne
    have hne' : lev ≠ s.mPreviousLev := by rw [hprev]; exact hne
    simp only [update, if_pos hne']

/-- Witness of `update_event`: the pin goes `LOW` at time 100 and is still `LOW` at times 120
and 160; with a debounce time of 50 ms the call at time 160 returns `DBTN_KEYDOWN`. -/
theorem update_event_witness :
    (update (run (construct 2 50 12345) [(1, 10), (0, 100), (0, 120)]) 0
      (160 % 4294967296)).1 = DBTN_KEYDOWN ∧
    lastChange [(1, 10), (0, 100), (0, 120)] = some 100 ∧
    (∃ r, [((1 : Nat), (10 : Nat)), (0, 100), (0, 120)].getLast? = some r ∧ r.1 = 0) ∧
    (update (run (construct 2 50 12345) [(1, 10), (0, 100)]) 0 (120 % 4294967296)).1
      = DBTN_NOCHANGE ∧
    (update (run (construct 2 50 12345) [(1, 10)]) 0 (100 % 4294967296)).1 = DBTN_NOCHANGE :=
  have h := update_event 2 50 (by decide) (by decide) 12345 [(1, 10), (0, 100), (0, 120)] 0 160
  have h' := update_event 2 50 (by decide) (by decide) 12345 [(1, 10)] 0 100
  ⟨by decide, by decide, (h.1 (Or.inr (by decide))).1, by decide, h'.2 (by decide)⟩

end DebounceButton


namespace Geiger

/-! ### Runs of the estimator -/

theorem addCount_of_flushDue {s : Geiger} {millis : Nat} (h : flushDue s millis = true)
    (num : Nat) :
    addCount s millis num =
      { mTotalCount := (s.mTotalCount + num) % 4294967296
        mStartTimeMs := s.mStartTimeMs
        mIntervalCount := num
        mIntervalIndex := (s.mIntervalIndex + 1) % 4294967296
        mAverage := s.mAverage.add s.mIntervalCount } := by
  simp only [flushDue, decide_eq_true_eq] at h
  simp only [addCount, if_pos h]

theorem addCount_of_not_flushDue {s : Geiger} {millis : Nat} (h : flushDue s millis = false)
    (num : Nat) :
    addCount s millis num =
      { mTotalCount := (s.mTotalCount + num) % 4294967296
        mStartTimeMs := s.mStartTimeMs
        mIntervalCount := (s.mIntervalCount + num) % 65536
        mIntervalIndex := s.mIntervalIndex
        mAverage := s.mAverage } := by
  simp only [flushDue, decide_eq_false_iff_not] at h
  simp only [addCount, if_neg h]

theorem run_cons (s : Geiger) (c : Nat × Nat) (cs : List (Nat × Nat)) :
    run s (c :: cs) = run (addCount s c.1 c.2) cs := rfl

theorem run_average (s : Geiger) (calls : List (Nat × Nat)) :
    (run s calls).mAverage = MovingAverage.addAll s.mAverage (flushes s calls) := by
  induction calls generalizing s with
  | nil => rfl
  | cons c cs ih =>
    rw [run_cons, ih]
    by_cases h : flushDue s c.1 = true
    · simp only [flushes, if_pos h, addCount_of_flushDue h]
      rfl
    · have h' : flushDue s c.1 = false := by simpa using h
      simp only [flushes, h', addCount_of_not_flushDue h']
      rfl

theorem run_conservation (s : Geiger) (calls : List (Nat × Nat)) (h : NoOverflow s calls) :
    (run s calls).mTotalCount = s.mTotalCount + (calls.map Prod.snd).sum ∧
    (flushes s calls).sum + (run s calls).mIntervalCount
      = s.mIntervalCount + (calls.map Prod.snd).sum := by
  induction calls generalizing s with
  | nil => simp [run, flushes]
  | cons c cs ih =>
    obtain ⟨ht, hb, hrest⟩ := h
    obtain ⟨ih1, ih2⟩ := ih (addCount s c.1 c.2) hrest
    have hfl : flushes s (c :: cs) = if flushDue s c.1 = true
        then s.mIntervalCount :: flushes (addCount s c.1 c.2) cs
        else flushes (addCount s c.1 c.2) cs := rfl
    rw [run_cons, ih1, hfl]
    simp only [List.map_cons, List.sum_cons]
    by_cases hf : flushDue s c.1 = true
    · have htot : (addCount s c.1 c.2).mTotalCount = s.mTotalCount + c.2 := by
        rw [addCount_of_flushDue hf]; exact Nat.mod_eq_of_lt ht
      have hbk : (addCount s c.1 c.2).mIntervalCount = c.2 := by
        rw [addCount_of_flushDue hf]
      rw [if_pos hf, List.sum_cons, htot]
      rw [hbk] at ih2
      omega
    · have hf' : flushDue s c.1 = false := by simpa using hf
      have htot : (addCount s c.1 c.2).mTotalCount = s.mTotalCount + c.2 := by
        rw [addCount_of_not_flushDue hf']; exact Nat.mod_eq_of_lt ht
      have hbk : (addCount s c.1 c.2).mIntervalCount = s.mIntervalCount + c.2 := by
        rw [addCount_of_not_flushDue hf']; exact Nat.mod_eq_of_lt (hb hf')
      rw [if_neg hf, htot]
      rw [hbk] at ih2
      omega

/-- C18: event conservation across buckets.  For every sequence of `addCount` calls after
`resetCount()` in which neither the 16-bit bucket nor the 32-bit total overflows, the total
counter is the sum of all `num` arguments since the reset, and it is the sum of the values
flushed into the averager since the reset plus the current bucket; the averager has received
exactly those values, in order. -/
theorem event_conservation (s0 : Geiger) (t0 : Nat) (calls : List (Nat × Nat))
    (h : NoOverflow (resetCount s0 t0) calls) :
    (run (resetCount s0 t0) calls).mTotalCount = (calls.map Prod.snd).sum ∧
    (run (resetCount s0 t0) calls).mTotalCount
      = (flushes (resetCount s0 t0) calls).sum + (run (resetCount s0 t0) calls).mIntervalCount ∧
    (run (resetCount s0 t0) calls).mAverage
      = MovingAverage.addAll (resetCount s0 t0).mAverage (flushes (resetCount s0 t0) calls) := by
  obtain ⟨h1, h2⟩ := run_conservation (resetCount s0 t0) calls h
  have ht : (resetCount s0 t0).mTotalCount = 0 := rfl
  have hb : (resetCount s0 t0).mIntervalCount = 0 := rfl
  rw [ht] at h1
  rw [hb] at h2
  refine ⟨by omega, by omega, run_average _ _⟩

/-- Witness of `event_conservation`: five calls over nine seconds, two of them flushing. -/
theorem event_conservation_witness :
    NoOverflow (resetCount (construct (fun _ => 0)) 100)
      [(1100, 5), (2100, 5), (3100, 5), (5000, 2), (9100, 1)] ∧
    flushes (resetCount (construct (fun _ => 0)) 100)
      [(1100, 5), (2100, 5), (3100, 5), (5000, 2), (9100, 1)] = [10, 7] ∧
    (run (resetCount (construct (fun _ => 0)) 100)
      [(1100, 5), (2100, 5), (3100, 5), (5000, 2), (9100, 1)]).mIntervalCount = 1 ∧
    (run (resetCount (construct (fun _ => 0)) 100)
      [(1100, 5), (2100, 5), (3100, 5), (5000, 2), (9100, 1)]).mTotalCount = 18 :=
  have hno : NoOverflow (resetCount (construct (fun _ => 0)) 100)
      [(1100, 5), (2100, 5), (3100, 5), (5000, 2), (9100, 1)] := by
    simp only [NoOverflow]
    decide
  ⟨hno, by decide, by decide,
    (event_conservation (construct (fun _ => 0)) 100
      [(1100, 5), (2100, 5), (3100, 5), (5000, 2), (9100, 1)] hno).1.trans (by decide)⟩

end Geiger


namespace Geiger

theorem run_before_first_flush (t0 : Nat) (calls : List (Nat × Nat)) :
    ∀ s : Geiger, s.mStartTimeMs = t0 → s.mIntervalIndex = 1 →
      (∀ c ∈ calls, (c.1 + 4294967296 - t0) % 4294967296 < SampleIntervalMs) →
      (run s calls).mAverage = s.mAverage ∧ (run s calls).mIntervalIndex = 1 ∧
      flushes s calls = [] := by
  induction calls with
  | nil => intro s _ hi _; exact ⟨rfl, hi, rfl⟩
  | cons c cs ih =>
    intro s hs hi hall
    have hc := hall c (List.mem_cons_self c cs)
    have hf : flushDue s c.1 = false := by
      simp only [flushDue, elapsedMs, hs, hi, decide_eq_false_iff_not, SampleIntervalMs] at hc ⊢
      omega
    have hstep := addCount_of_not_flushDue hf c.2
    obtain ⟨h1, h2, h3⟩ := ih (addCount s c.1 c.2) (by rw [hstep]; exact hs) (by rw [hstep]; exact hi)
      (fun c' hc' => hall c' (List.mem_cons_of_mem c hc'))
    refine ⟨?_, ?_, ?_⟩
    · rw [run_cons, h1, hstep]
    · rw [run_cons, h2]
    · simp only [flushes, hf, h3]
      rfl

/-- C19: the moving-average estimator before the first flush.  For every sequence of `addCount`
calls after `resetCount()` that all occur at elapsed times below `SampleIntervalMs`, nothing is
flushed, the averager holds no sample, the divisor `SampleIntervalMs * max(1, 0)` of the
conversion factor is not zero (the factor is `20`), and `getRateAverage()` returns `cpm = 0` and
`doseRate = 0`, whatever the `num` arguments were. -/
theorem rate_average_before_first_flush (s0 : Geiger) (t0 : Nat) (calls : List (Nat × Nat))
    (h : ∀ c ∈ calls, elapsedMs (resetCount s0 t0) c.1 < SampleIntervalMs) :
    flushes (resetCount s0 t0) calls = [] ∧
    (run (resetCount s0 t0) calls).mAverage.getNumberOfSamples = 0 ∧
    (run (resetCount s0 t0) calls).mAverage.getAverage = 0 ∧
    F32.div (F32.ofNat 60000) (F32.mul (F32.ofNat SampleIntervalMs)
      (F32.ofNat (max 1 (run (resetCount s0 t0) calls).mAverage.getNumberOfSamples)))
      = some (F32.ofNat 20) ∧
    getRateAverage (run (resetCount s0 t0) calls) = { cpm := some 0, nsv_h := some 0 } := by
  obtain ⟨h1, _, h3⟩ := run_before_first_flush t0 calls (resetCount s0 t0) rfl rfl h
  have hn : (run (resetCount s0 t0) calls).mAverage.getNumberOfSamples = 0 := by rw [h1]; rfl
  have ha : (run (resetCount s0 t0) calls).mAverage.getAverage = 0 := by rw [h1]; rfl
  refine ⟨h3, hn, ha, ?_, ?_⟩
  · rw [hn]; decide
  · simp only [getRateAverage, rateAverageValue, hn, ha]
    decide

/-- Witness of `rate_average_before_first_flush`: 70000 events in the first 2.5 s of an epoch
that starts 296 ms before the clock rolls over. -/
theorem rate_average_before_first_flush_witness :
    (∀ c ∈ [((4294967100 : Nat), (30000 : Nat)), (200, 40000), (2204, 0)],
      elapsedMs (resetCount (construct (fun _ => 0)) 4294967000) c.1 < SampleIntervalMs) ∧
    (run (resetCount (construct (fun _ => 0)) 4294967000)
      [(4294967100, 30000), (200, 40000), (2204, 0)]).mTotalCount = 70000 ∧
    getRateAverage (run (resetCount (construct (fun _ => 0)) 4294967000)
      [(4294967100, 30000), (200, 40000), (2204, 0)]) = { cpm := some 0, nsv_h := some 0 } :=
  ⟨by decide, by decide,
    (rate_average_before_first_flush (construct (fun _ => 0)) 4294967000
      [(4294967100, 30000), (200, 40000), (2204, 0)] (by decide)).2.2.2.2⟩

theorem run_index_fill (calls : List (Nat × Nat)) :
    ∀ s : Geiger, s.mAverage.mSize = MovingAverageBuffSize →
      s.mAverage.getNumberOfSamples = min (s.mIntervalIndex - 1) MovingAverageBuffSize →
      1 ≤ s.mIntervalIndex → IndexInRange s calls →
      (run s calls).mAverage.getNumberOfSamples
        = min ((run s calls).mIntervalIndex - 1) MovingAverageBuffSize ∧
      1 ≤ (run s calls).mIntervalIndex := by
  induction calls with
  | nil => intro s _ hn hi _; exact ⟨hn, hi⟩
  | cons c cs ih =>
    intro s hsize hn hi hrange
    obtain ⟨hidx, hrest⟩ := hrange
    rw [run_cons]
    by_cases hf : flushDue s c.1 = true
    · have hstep := addCount_of_flushDue hf c.2
      have hlt := hidx hf
      apply ih (addCount s c.1 c.2) _ _ _ hrest
      · rw [hstep]; simpa [MovingAverage.add] using hsize
      · rw [hstep]
        simp only [MovingAverage.getNumberOfSamples, MovingAverage.add, hsize,
          MovingAverageBuffSize] at hn ⊢
        rw [Nat.mod_eq_of_lt hlt]
        split <;> omega
      · rw [hstep]
        simp only
        rw [Nat.mod_eq_of_lt hlt]
        omega
    · have hf' : flushDue s c.1 = false := by simpa using hf
      have hstep := addCount_of_not_flushDue hf' c.2
      apply ih (addCount s c.1 c.2) _ _ _ hrest
      · rw [hstep]; exact hsize
      · rw [hstep]; exact hn
      · rw [hstep]; exact hi

/-- C20: the interval index tracks the fill level of the averager.  In every state reached from
`resetCount()` by a sequence of `addCount` calls at any clock values in which no flush overflows
the 32-bit index, `getNumberOfSamples()` of the averager is
`min(intervalIndex - 1, MovingAverageBuffSize)` with `MovingAverageBuffSize = 10`, and
`intervalIndex ≥ 1`. -/
theorem index_tracks_fill (s0 : Geiger)
    (hs0 : MovingAverage.Reachable MovingAverageBuffSize s0.mAverage) (t0 : Nat)
    (calls : List (Nat × Nat)) (h : IndexInRange (resetCount s0 t0) calls) :
    (run (resetCount s0 t0) calls).mAverage.getNumberOfSamples
      = min ((run (resetCount s0 t0) calls).mIntervalIndex - 1) MovingAverageBuffSize ∧
    1 ≤ (run (resetCount s0 t0) calls).mIntervalIndex ∧
    MovingAverageBuffSize = 10 := by
  have hsize : (resetCount s0 t0).mAverage.mSize = MovingAverageBuffSize :=
    (MovingAverage.reachable_size_len hs0).1
  obtain ⟨h1, h2⟩ := run_index_fill calls (resetCount s0 t0) hsize rfl (Nat.le_refl 1) h
  exact ⟨h1, h2, rfl⟩

/-- Witness of `index_tracks_fill`: twelve flushes fill the ten slots. -/
theorem index_tracks_fill_witness :
    MovingAverage.Reachable MovingAverageBuffSize (construct (fun _ => 0)).mAverage ∧
    IndexInRange (resetCount (construct (fun _ => 0)) 0)
      [(3000, 1), (6000, 1), (9000, 1), (12000, 1), (15000, 1), (18000, 1), (21000, 1),
        (24000, 1), (27000, 1), (30000, 1), (33000, 1), (36000, 1)] ∧
    (run (resetCount (construct (fun _ => 0)) 0)
      [(3000, 1), (6000, 1), (9000, 1), (12000, 1), (15000, 1), (18000, 1), (21000, 1),
        (24000, 1), (27000, 1), (30000, 1), (33000, 1), (36000, 1)]).mIntervalIndex = 13 ∧
    (run (resetCount (construct (fun _ => 0)) 0)
      [(3000, 1), (6000, 1), (9000, 1), (12000, 1), (15000, 1), (18000, 1), (21000, 1),
        (24000, 1), (27000, 1), (30000, 1), (33000, 1), (36000, 1)]).mAverage.getNumberOfSamples
      = min (13 - 1) MovingAverageBuffSize :=
  have hr : MovingAverage.Reachable MovingAverageBuffSize (construct (fun _ => 0)).mAverage :=
    MovingAverage.Reachable.construct _
  have hi : IndexInRange (resetCount (construct (fun _ => 0)) 0)
      [(3000, 1), (6000, 1), (9000, 1), (12000, 1), (15000, 1), (18000, 1), (21000, 1),
        (24000, 1), (27000, 1), (30000, 1), (33000, 1), (36000, 1)] := by
    simp only [IndexInRange]
    decide
  have hidx : (run (resetCount (construct (fun _ => 0)) 0)
      [(3000, 1), (6000, 1), (9000, 1), (12000, 1), (15000, 1), (18000, 1), (21000, 1),
        (24000, 1), (27000, 1), (30000, 1), (33000, 1), (36000, 1)]).mIntervalIndex = 13 := by
    decide
  ⟨hr, hi, hidx, by
    have h := (index_tracks_fill (construct (fun _ => 0)) hr 0 _ hi).1
    rw [hidx] at h
    exact h⟩

end Geiger


namespace Geiger

/-! ### Flushes and interval boundaries -/

/-- C17, counterexample.  After `resetCount()` at clock value `0` the first call comes at 7000
ms, when the boundaries 3000 and 6000 have passed; it flushes once and the index becomes 2.  The
following call at 7100 ms, before the next multiple 9000 of `SampleIntervalMs`, flushes again:
the averager holds two samples and the index is 3. -/
theorem missed_boundaries_not_collapsed :
    (run (resetCount (construct (fun _ => 0)) 0) [(7000, 1)]).mIntervalIndex = 2 ∧
    (run (resetCount (construct (fun _ => 0)) 0) [(7000, 1)]).mAverage.getNumberOfSamples = 1 ∧
    elapsedMs (run (resetCount (construct (fun _ => 0)) 0) [(7000, 1)]) 7100 = 7100 ∧
    7100 < (7000 / SampleIntervalMs + 1) * SampleIntervalMs ∧
    flushes (run (resetCount (construct (fun _ => 0)) 0) [(7000, 1)]) [(7100, 1)] = [1] ∧
    (addCount (run (resetCount (construct (fun _ => 0)) 0) [(7000, 1)]) 7100 1).mAverage
      ≠ (run (resetCount (construct (fun _ => 0)) 0) [(7000, 1)]).mAverage ∧
    (addCount (run (resetCount (construct (fun _ => 0)) 0) [(7000, 1)]) 7100
      1).mAverage.getNumberOfSamples = 2 ∧
    (addCount (run (resetCount (construct (fun _ => 0)) 0) [(7000, 1)]) 7100 1).mIntervalIndex
      = 3 := by
  decide

/-- C17, amended: missed boundaries are made up one flush per call.  For every state and clock
reading at which two or more interval boundaries have passed since the previous flush, that is
`elapsed ≥ (intervalIndex + 1) * SampleIntervalMs`, the call `addCount(num)` performs a single
flush and increments the index by one; every following `addCount` call at an elapsed time that
is not earlier, in particular one before the next multiple of `SampleIntervalMs`, flushes into
the averager again, with the bucket value `num`, and increments the index again. -/
theorem missed_boundaries_flushed_per_call (s : Geiger) (now num : Nat)
    (hmiss : (s.mIntervalIndex + 1) * SampleIntervalMs ≤ elapsedMs s now) :
    (addCount s now num).mAverage = s.mAverage.add s.mIntervalCount ∧
    (addCount s now num).mIntervalIndex = s.mIntervalIndex + 1 ∧
    (addCount s now num).mIntervalCount = num ∧
    ∀ later num' : Nat, elapsedMs s now ≤ elapsedMs s later →
      (addCount (addCount s now num) later num').mAverage
        = (s.mAverage.add s.mIntervalCount).add num ∧
      (addCount (addCount s now num) later num').mIntervalIndex = s.mIntervalIndex + 2 ∧
      (addCount (addCount s now num) later num').mIntervalCount = num' := by
  have hlt : elapsedMs s now < 4294967296 := by
    simp only [elapsedMs]; omega
  simp only [SampleIntervalMs] at hmiss
  have hf : flushDue s now = true := by
    simp only [flushDue, decide_eq_true_eq, SampleIntervalMs]
    omega
  have hstep := addCount_of_flushDue hf num
  have hidx : (s.mIntervalIndex + 1) % 4294967296 = s.mIntervalIndex + 1 := by omega
  refine ⟨by rw [hstep], by rw [hstep]; exact hidx, by rw [hstep], ?_⟩
  intro later num' hlater
  have hlt' : elapsedMs s later < 4294967296 := by
    simp only [elapsedMs]; omega
  have hel : elapsedMs (addCount s now num) later = elapsedMs s later := by
    rw [hstep]; rfl
  have hf' : flushDue (addCount s now num) later = true := by
    simp only [flushDue, decide_eq_true_eq, hel]
    rw [hstep]
    simp only [hidx, SampleIntervalMs]
    omega
  rw [addCount_of_flushDue hf' num', hstep]
  simp only [hidx]
  refine ⟨trivial, ?_, trivial⟩
  omega

/-- Witness of `missed_boundaries_flushed_per_call`: the run of the counterexample. -/
theorem missed_boundaries_flushed_per_call_witness :
    ((resetCount (construct (fun _ => 0)) 0).mIntervalIndex + 1) * SampleIntervalMs
      ≤ elapsedMs (resetCount (construct (fun _ => 0)) 0) 7000 ∧
    (addCount (resetCount (construct (fun _ => 0)) 0) 7000 1).mIntervalIndex = 2 ∧
    (addCount (addCount (resetCount (construct (fun _ => 0)) 0) 7000 1) 7100 1).mIntervalIndex
      = 3 :=
  have h := missed_boundaries_flushed_per_call (resetCount (construct (fun _ => 0)) 0) 7000 1
    (by decide)
  ⟨by decide, h.2.1, (h.2.2.2 7100 1 (by decide)).2.1⟩

theorem run_append (s : Geiger) (xs ys : List (Nat × Nat)) :
    run s (xs ++ ys) = run (run s xs) ys := by
  simp [run, List.foldl_append]

end Geiger

namespace Geiger

/-! ### The cumulative rate after a day at 1000 events per second -/

theorem everySecond_split (n : Nat) :
    everySecond (3 * (n + 1)) = everySecond (3 * n)
      ++ [(1000 * (3 * n + 1), 1000), (1000 * (3 * n + 2), 1000), (1000 * (3 * n + 3), 1000)] := by
  have h : 3 * (n + 1) = 3 * n + 1 + 1 + 1 := by omega
  rw [everySecond, h, List.range_succ, List.range_succ, List.range_succ]
  simp [everySecond]

/-- Three calls `addCount(1000)` one second apart, starting one second after the `j`-th boundary
with index `j + 1` and bucket `b`: the first two add to the bucket, the third, on the boundary
`3000 * (j + 1)`, flushes `b + 2000` and restarts the bucket at 1000. -/
theorem three_seconds_step (s : Geiger) (j b : Nat) (hs : s.mStartTimeMs = 0)
    (hi : s.mIntervalIndex = j + 1) (hb : s.mIntervalCount = b) (hb1 : b ≤ 1000)
    (ht : s.mTotalCount = 3000 * j) (hj : j < 1000000) :
    run s [(1000 * (3 * j + 1), 1000), (1000 * (3 * j + 2), 1000), (1000 * (3 * j + 3), 1000)]
      = { mTotalCount := 3000 * (j + 1)
          mStartTimeMs := 0
          mIntervalCount := 1000
          mIntervalIndex := j + 2
          mAverage := s.mAverage.add (b + 2000) } := by
  have hp : (j + 1) * 3000 % 4294967296 = (j + 1) * 3000 := Nat.mod_eq_of_lt (by omega)
  have he : ∀ t, t < 4294967296 → (t + 4294967296 - 0) % 4294967296 = t := by
    intro t h
    omega
  have h1 : flushDue s (1000 * (3 * j + 1)) = false := by
    simp only [flushDue, elapsedMs, hs, hi, SampleIntervalMs, decide_eq_false_iff_not]
    rw [hp, he _ (by omega)]
    omega
  rw [run_cons, addCount_of_not_flushDue h1]
  have h2 : flushDue
      { mTotalCount := (s.mTotalCount + 1000) % 4294967296
        mStartTimeMs := s.mStartTimeMs
        mIntervalCount := (s.mIntervalCount + 1000) % 65536
        mIntervalIndex := s.mIntervalIndex
        mAverage := s.mAverage } (1000 * (3 * j + 2)) = false := by
    simp only [flushDue, elapsedMs, hs, hi, SampleIntervalMs, decide_eq_false_iff_not]
    rw [hp, he _ (by omega)]
    omega
  rw [run_cons, addCount_of_not_flushDue h2]
  have h3 : flushDue
      { mTotalCount := ((s.mTotalCount + 1000) % 4294967296 + 1000) % 4294967296
        mStartTimeMs := s.mStartTimeMs
        mIntervalCount := ((s.mIntervalCount + 1000) % 65536 + 1000) % 65536
        mIntervalIndex := s.mIntervalIndex
        mAverage := s.mAverage } (1000 * (3 * j + 3)) = true := by
    simp only [flushDue, elapsedMs, hs, hi, SampleIntervalMs, decide_eq_true_eq]
    rw [hp, he _ (by omega)]
    omega
  rw [run_cons, addCount_of_flushDue h3]
  show Geiger.mk _ _ _ _ _ = Geiger.mk _ _ _ _ _
  have e1 : (((s.mTotalCount + 1000) % 4294967296 + 1000) % 4294967296 + 1000) % 4294967296
      = 3000 * (j + 1) := by omega
  have e2 : (s.mIntervalIndex + 1) % 4294967296 = j + 2 := by omega
  have e3 : ((s.mIntervalCount + 1000) % 65536 + 1000) % 65536 = b + 2000 := by omega
  rw [e1, e2, e3, hs]

/-- The state after `3 * (j + 1)` seconds of `addCount(1000)` once a second: the flushed values
are 2000 for the first interval and 3000 for each of the `j` following ones. -/
theorem everySecond_run (heap : Nat → Nat) (j : Nat) (hj : j < 1000000) :
    run (resetCount (construct heap) 0) (everySecond (3 * (j + 1)))
      = { mTotalCount := 3000 * (j + 1)
          mStartTimeMs := 0
          mIntervalCount := 1000
          mIntervalIndex := j + 2
          mAverage := MovingAverage.addAll
            (MovingAverage.construct MovingAverageBuffSize heap).reset
            (2000 :: List.replicate j 3000) } := by
  induction j with
  | zero =>
    rw [everySecond_split, run_append]
    exact three_seconds_step (resetCount (construct heap) 0) 0 0 rfl rfl rfl (by omega) rfl
      (by omega)
  | succ i ih =>
    rw [everySecond_split, run_append, ih (by omega)]
    rw [three_seconds_step _ (i + 1) 1000 rfl rfl rfl (by omega) rfl hj]
    have hadd : MovingAverage.addAll (MovingAverage.construct MovingAverageBuffSize heap).reset
        (2000 :: List.replicate (i + 1) 3000)
        = (MovingAverage.addAll (MovingAverage.construct MovingAverageBuffSize heap).reset
            (2000 :: List.replicate i 3000)).add (1000 + 2000) := by
      rw [List.replicate_succ', ← List.cons_append]
      simp only [MovingAverage.addAll, List.foldl_append, List.foldl_cons, List.foldl_nil]
    rw [hadd]

/-- After at least eleven flushes the averager holds ten samples of 3000. -/
theorem everySecond_average (heap : Nat → Nat) (j : Nat) (hj : 10 ≤ j) :
    (MovingAverage.addAll (MovingAverage.construct MovingAverageBuffSize heap).reset
      (2000 :: List.replicate j 3000)).getNumberOfSamples = 10 ∧
    (MovingAverage.addAll (MovingAverage.construct MovingAverageBuffSize heap).reset
      (2000 :: List.replicate j 3000)).getAverage = 30000 := by
  have hw := MovingAverage.window_addAll
    (MovingAverage.window_reset (N := 10) (s := MovingAverage.construct MovingAverageBuffSize heap)
      (by simp [MovingAverage.construct, MovingAverage.reset, MovingAverageBuffSize])
      (by simp [MovingAverage.construct, MovingAverage.reset, MovingAverageBuffSize]))
    (by omega) (by omega) (2000 :: List.replicate j 3000)
    (by
      intro x hx
      rw [List.mem_cons, List.mem_replicate] at hx
      omega)
  have hlen : (2000 :: List.replicate j 3000).length = j + 1 := by simp
  refine ⟨?_, ?_⟩
  · show MovingAverage.mNumSamples _ = 10
    rw [hw.num, hlen]
    omega
  · show MovingAverage.mNAverage _ = 30000
    rw [hw.sum, hlen]
    have hd : j + 1 - 10 = (j - 10) + 1 := by omega
    rw [hd, List.drop_succ_cons, List.drop_replicate]
    have hk : j - (j - 10) = 10 := by omega
    rw [hk]
    rfl

/-- The two rate estimators in a state with 86400000 events, 86400000 ms after the epoch start,
whose averager has received 2000 and then 28799 times 3000. -/
theorem day_rates (S : Geiger) (hT : S.mTotalCount = 86400000) (hS : S.mStartTimeMs = 0)
    (hA : S.mAverage
      = MovingAverage.addAll (MovingAverage.construct MovingAverageBuffSize (fun _ => 0)).reset
          (2000 :: List.replicate 28799 3000)) :
    elapsedMs S 86400000 / 1000 = 86400 ∧
    (getRateTimer S 86400000).cpm = some 10289 ∧
    (getRateAverage S).cpm = some 60000 := by
  have hsec : elapsedMs S 86400000 / 1000 = 86400 := by
    simp only [elapsedMs, hS]
  refine ⟨hsec, ?_, ?_⟩
  · rw [(getRateTimer_cpm S 86400000 (by rw [hsec]; norm_num)).1, hsec, hT]
  · obtain ⟨hnum, havg⟩ := everySecond_average (fun _ => 0) 28799 (by norm_num)
    simp only [getRateAverage, rateAverageValue]
    rw [hA, hnum, havg]
    decide

/-- C7, evaluation at the failing input: the 32-bit product `mTotalCount*60` overflows within
a day of counting.  After
`resetCount()` at clock value `0` and `addCount(1000)` once a second for 24 hours the total is
86400000 and 86400 s have elapsed; `getRateTimer()` returns `cpm = 10289`, the quotient of the
wrapped product `86400000 * 60 mod 2^32 = 889032704`, and not the count rate
`floor(86400000 * 60 / 86400) = 60000`, which fits the 32-bit output and is the value
`getRateAverage()` returns in the same state. -/
theorem getRateTimer_cpm_overflows_within_a_day :
    (run (resetCount (construct (fun _ => 0)) 0) (everySecond 86400)).mTotalCount
      = 86400000 ∧
    elapsedMs (run (resetCount (construct (fun _ => 0)) 0) (everySecond 86400))
      86400000 / 1000 = 86400 ∧
    (getRateTimer (run (resetCount (construct (fun _ => 0)) 0) (everySecond 86400))
      86400000).cpm = some 10289 ∧
    86400000 * 60 % 4294967296 = 889032704 ∧
    86400000 * 60 / 86400 = 60000 ∧
    60000 < 4294967296 ∧
    (getRateAverage (run (resetCount (construct (fun _ => 0)) 0) (everySecond 86400))).cpm
      = some 60000 := by
  have hrun := everySecond_run (fun _ => 0) 28799 (by norm_num)
  rw [congrArg everySecond (show 3 * (28799 + 1) = 86400 by norm_num)] at hrun
  obtain ⟨h1, h2, h3⟩ := day_rates (run (resetCount (construct (fun _ => 0)) 0)
    (everySecond 86400)) (by rw [hrun]) (by rw [hrun]) (by rw [hrun])
  exact ⟨by rw [hrun], h1, h2, by norm_num, by norm_num, by norm_num, h3⟩

end Geiger

end ArduinoGeiger
